import Mathlib

/-!
Verification of the `seantis/roots` container-image puller against its
natural-language specification.

The development shallowly embeds the relevant Go code:

* `pkg/image/url.go` — the image URL parser (`Parse`, `URL.String`).
  Go strings are modelled as `List Char`; the Go standard-library string
  helpers used by the parser (`strings.Split`, `strings.SplitN` via the
  repository's `bisect`, `strings.Contains`, `strings.ContainsAny`,
  `strings.Trim`) are modelled component by component.
* `pkg/image/untar.go` — the three-pass layer extractor: pass 1
  (whiteouts, unsafe-path rejection, directory creation), pass 3 (link
  resolution), `setDirectoryPermissions`, and the `Readdir` loop of
  `applyOpaqueWhiteout`.  Filesystem effects are modelled as explicit
  traces / environments; Go's `path.Clean`, `path/filepath.Join`, `Dir`
  and `Base` are modelled faithfully for slash-separated paths.
* `pkg/image/store.go` — `Store.Extract`, `Store.saveLink`,
  `Store.readLinks` and `Store.Purge`, modelled over an environment that
  fixes the outcome of each I/O step (the code treats those outcomes as
  opaque `error` values, so the environment is the natural embedding).
* `pkg/image/remote.go` — `Remote.Digest` over an environment providing
  the manifest-list fetch result and the `Docker-Content-Digest` header.

Functions are kept executable so that every statement can be checked on
concrete inputs with `decide` / `rfl`.
-/

namespace Roots

/-! ## Go string primitives (strings as `List Char`) -/

/-- A Go string, modelled as its list of characters. -/
abbrev GoStr := List Char

/-- `strings.Contains(s, string(c))` for a one-character needle. -/
def containsChar (c : Char) (l : GoStr) : Bool :=
  l.any (fun a => a == c)

/-- `strings.ContainsAny(s, ".:")` — does `l` contain a `'.'` or a `':'`? -/
def containsDotColon (l : GoStr) : Bool :=
  l.any (fun a => a == '.' || a == ':')

/-- Is `c` one of the cutset characters of `strings.Trim(url, " \n\t")`? -/
def isTrimChar (c : Char) : Bool :=
  c == ' ' || c == '\n' || c == '\t'

/-- `strings.Trim(s, " \n\t")`: drop cutset characters from both ends. -/
def goTrim (l : GoStr) : GoStr :=
  ((l.dropWhile isTrimChar).reverse.dropWhile isTrimChar).reverse

/-- `strings.Split(s, string(c))` for a one-character separator. -/
def splitChar (c : Char) : GoStr → List GoStr
  | [] => [[]]
  | x :: xs =>
    let r := splitChar c xs
    if x = c then [] :: r
    else
      match r with
      | h :: t => (x :: h) :: t
      | [] => [[x]]

/-- The repository's `bisect(text, delim)` (`strings.SplitN(text, delim, 2)`)
for a one-character delimiter.  The Go code only calls `bisect` after a
`strings.Contains` check; when the delimiter is absent we return `(l, [])`. -/
def bisectChar (c : Char) : GoStr → GoStr × GoStr
  | [] => ([], [])
  | x :: xs =>
    if x = c then ([], xs)
    else
      let r := bisectChar c xs
      (x :: r.1, r.2)

@[simp] theorem containsChar_nil (c : Char) : containsChar c [] = false := rfl

@[simp] theorem containsChar_cons (c a : Char) (l : GoStr) :
    containsChar c (a :: l) = ((a == c) || containsChar c l) := rfl

theorem containsChar_append (c : Char) (a b : GoStr) :
    containsChar c (a ++ b) = (containsChar c a || containsChar c b) := by
  simp [containsChar, List.any_append]

theorem splitChar_ne_nil (c : Char) (l : GoStr) : splitChar c l ≠ [] := by
  cases l with
  | nil => simp [splitChar]
  | cons x xs =>
    simp only [splitChar]
    split
    · simp
    · split <;> simp

/-- Splitting a list without the separator yields the singleton list. -/
theorem splitChar_of_not_contains (c : Char) (l : GoStr)
    (h : containsChar c l = false) : splitChar c l = [l] := by
  induction l with
  | nil => rfl
  | cons x xs ih =>
    simp only [containsChar_cons, Bool.or_eq_false_iff, beq_eq_false_iff_ne] at h
    simp only [splitChar, if_neg h.1, ih h.2]

/-- Splitting around an explicit separator occurrence. -/
theorem splitChar_append (c : Char) (a b : GoStr)
    (h : containsChar c a = false) :
    splitChar c (a ++ c :: b) = a :: splitChar c b := by
  induction a with
  | nil => simp [splitChar]
  | cons x xs ih =>
    simp only [containsChar_cons, Bool.or_eq_false_iff, beq_eq_false_iff_ne] at h
    simp only [List.cons_append, splitChar, if_neg h.1]
    rw [List.append_eq, ih h.2]

/-- Every component of a split is free of the separator. -/
theorem not_contains_of_mem_splitChar {c : Char} {x : GoStr} {l : GoStr}
    (hx : x ∈ splitChar c l) : containsChar c x = false := by
  induction l generalizing x with
  | nil =>
    simp only [splitChar, List.mem_singleton] at hx
    subst hx; rfl
  | cons y ys ih =>
    simp only [splitChar] at hx
    split at hx
    · rcases List.mem_cons.mp hx with h | h
      · subst h; rfl
      · exact ih h
    · rename_i hyc
      rcases hr : splitChar c ys with _ | ⟨h0, t0⟩
      · exact absurd hr (splitChar_ne_nil c ys)
      · rw [hr] at hx
        rcases List.mem_cons.mp hx with h | h
        · subst h
          have h0mem : containsChar c h0 = false := ih (by rw [hr]; exact List.mem_cons_self _ _)
          simp only [containsChar_cons, h0mem, Bool.or_false, beq_eq_false_iff_ne]
          exact hyc
        · exact ih (by rw [hr]; exact List.mem_cons_of_mem _ h)

/-- Characters of split components come from the original list: a character
absent from `l` is absent from every component. -/
theorem not_contains_of_mem_splitChar_of_not_contains {c d : Char} {x l : GoStr}
    (hl : containsChar d l = false) (hx : x ∈ splitChar c l) :
    containsChar d x = false := by
  induction l generalizing x with
  | nil =>
    simp only [splitChar, List.mem_singleton] at hx
    subst hx; rfl
  | cons y ys ih =>
    simp only [containsChar_cons, Bool.or_eq_false_iff] at hl
    simp only [splitChar] at hx
    split at hx
    · rcases List.mem_cons.mp hx with h | h
      · subst h; rfl
      · exact ih hl.2 h
    · rcases hr : splitChar c ys with _ | ⟨h0, t0⟩
      · exact absurd hr (splitChar_ne_nil c ys)
      · rw [hr] at hx
        rcases List.mem_cons.mp hx with h | h
        · subst h
          have h0mem : containsChar d h0 = false :=
            ih hl.2 (by rw [hr]; exact List.mem_cons_self _ _)
          simp only [containsChar_cons, h0mem, Bool.or_false, hl.1]
        · exact ih hl.2 (by rw [hr]; exact List.mem_cons_of_mem _ h)

/-- The left half of a bisection never contains the delimiter. -/
theorem bisectChar_fst_not_contains (c : Char) (l : GoStr) :
    containsChar c (bisectChar c l).1 = false := by
  induction l with
  | nil => rfl
  | cons x xs ih =>
    simp only [bisectChar]
    split
    · rfl
    · rename_i hxc
      simp only [containsChar_cons, ih, Bool.or_false, beq_eq_false_iff_ne]
      exact hxc

/-- Bisecting at an explicit first occurrence of the delimiter. -/
theorem bisectChar_append (c : Char) (a b : GoStr)
    (h : containsChar c a = false) :
    bisectChar c (a ++ c :: b) = (a, b) := by
  induction a with
  | nil => simp [bisectChar]
  | cons x xs ih =>
    simp only [containsChar_cons, Bool.or_eq_false_iff, beq_eq_false_iff_ne] at h
    simp only [List.cons_append, bisectChar, if_neg h.1]
    rw [List.append_eq, ih h.2]

/-- Characters of both bisection halves come from the original list. -/
theorem bisectChar_not_contains (c d : Char) (l : GoStr)
    (hl : containsChar d l = false) :
    containsChar d (bisectChar c l).1 = false ∧
      containsChar d (bisectChar c l).2 = false := by
  induction l with
  | nil => exact ⟨rfl, rfl⟩
  | cons x xs ih =>
    simp only [containsChar_cons, Bool.or_eq_false_iff] at hl
    simp only [bisectChar]
    split
    · exact ⟨rfl, hl.2⟩
    · have := ih hl.2
      exact ⟨by simp only [containsChar_cons, this.1, Bool.or_false, hl.1], this.2⟩

/-! ## The image URL parser (`pkg/image/url.go`) -/

/-- `URL` from `pkg/image/url.go`. -/
structure GoURL where
  Name : GoStr
  Host : GoStr
  Repository : GoStr
  Tag : GoStr
  Digest : GoStr
deriving DecidableEq, Repr

/-- The default host filled in by `Parse`. -/
def defaultHost : GoStr := "registry-1.docker.io".toList

/-- The default repository filled in by `Parse`. -/
def defaultRepository : GoStr := "library".toList

/-- The default tag filled in by `Parse`. -/
def defaultTag : GoStr := "latest".toList

/-- Final stage of `Parse`: the empty-name check
(`"could not find a name for %s"`) followed by the defaults
(`registry-1.docker.io`, `latest`, `library`).  `host0`, `repo0`, `tag0`
are the values accumulated in `p` before the defaults run (empty when the
input supplied none). -/
def parseDefaults (nm host0 repo0 tag0 digest : GoStr) : Option GoURL :=
  if nm = [] then none
  else some
    { Name := nm
      Host := if host0 = [] then defaultHost else host0
      Repository := if repo0 = [] then defaultRepository else repo0
      Tag := if tag0 = [] then defaultTag else tag0
      Digest := digest }

/-- The `switch len(parts)` of `Parse`: one part is the name, two parts are
repository and name, anything else is the `"too many slashes in %s"` error. -/
def parseSwitch (host0 : GoStr) (parts2 : List GoStr) (tag0 digest : GoStr) :
    Option GoURL :=
  match parts2 with
  | [nm] => parseDefaults nm host0 [] tag0 digest
  | [rp, nm] => parseDefaults nm host0 rp tag0 digest
  | _ => none

/-- The tag step of `Parse`: if the last part contains a `':'`, bisect it
into the new last part and the tag. -/
def parseTag (host0 : GoStr) (parts1 : List GoStr) (digest : GoStr) :
    Option GoURL :=
  match parts1.getLast? with
  | some lastP =>
    if containsChar ':' lastP then
      parseSwitch host0 (parts1.dropLast ++ [(bisectChar ':' lastP).1])
        (bisectChar ':' lastP).2 digest
    else parseSwitch host0 parts1 [] digest
  | none => parseSwitch host0 parts1 [] digest

/-- The host step of `Parse`: split on `'/'` and peel off a host when there
is a slash and the first part contains a `'.'` or a `':'`
(`strings.Contains(url, "/") && strings.ContainsAny(parts[0], ".:")`). -/
def parseURLPart (url digest : GoStr) : Option GoURL :=
  match splitChar '/' url with
  | [] => none
  | p0 :: rest =>
    if containsChar '/' url && containsDotColon p0 then parseTag p0 rest digest
    else parseTag [] (p0 :: rest) digest

/-- `Parse` from `pkg/image/url.go`.  `none` models the error returns
(`"passed an empty url"`, `"too many slashes in %s"`,
`"could not find a name for %s"`).  The translation follows the Go
statement order: trim, digest bisection at `'@'`, slash split, host
detection, tag bisection at `':'` on the last part, the arity switch, the
empty-name check, then the defaults. -/
def goParse (s : GoStr) : Option GoURL :=
  let url0 := goTrim s
  if url0 = [] then none
  else if containsChar '@' url0 then
    parseURLPart (bisectChar '@' url0).1 (bisectChar '@' url0).2
  else parseURLPart url0 []

/-- `URL.String` from `pkg/image/url.go`: the canonical form
`host/repository/name:tag[@digest]`, or `<empty>` when the name is empty. -/
def urlString (u : GoURL) : GoStr :=
  if u.Name = [] then "<empty>".toList
  else
    (u.Host ++ ('/' :: (u.Repository ++ ('/' :: (u.Name ++ (':' :: u.Tag)))))) ++
      (if u.Digest = [] then [] else '@' :: u.Digest)

/-! ### Inversion: structural facts about every successfully parsed URL -/

/-- Invariants satisfied by every `URL` produced by a successful `Parse`. -/
structure ParseInv (u : GoURL) : Prop where
  name_ne : u.Name ≠ []
  host_ne : u.Host ≠ []
  repo_ne : u.Repository ≠ []
  tag_ne : u.Tag ≠ []
  host_slash : containsChar '/' u.Host = false
  repo_slash : containsChar '/' u.Repository = false
  name_slash : containsChar '/' u.Name = false
  tag_slash : containsChar '/' u.Tag = false
  host_at : containsChar '@' u.Host = false
  repo_at : containsChar '@' u.Repository = false
  name_at : containsChar '@' u.Name = false
  tag_at : containsChar '@' u.Tag = false
  name_colon : containsChar ':' u.Name = false
  host_dotcolon : containsDotColon u.Host = true

theorem parseDefaults_inv {nm host0 repo0 tag0 digest : GoStr} {u : GoURL}
    (h : parseDefaults nm host0 repo0 tag0 digest = some u) :
    nm ≠ [] ∧
      u = { Name := nm
            Host := if host0 = [] then defaultHost else host0
            Repository := if repo0 = [] then defaultRepository else repo0
            Tag := if tag0 = [] then defaultTag else tag0
            Digest := digest } := by
  by_cases hnm : nm = []
  · rw [parseDefaults, if_pos hnm] at h
    exact absurd h (by simp)
  · rw [parseDefaults, if_neg hnm] at h
    exact ⟨hnm, (Option.some.inj h).symm⟩

theorem parseSwitch_inv {host0 : GoStr} {parts2 : List GoStr} {tag0 digest : GoStr}
    {u : GoURL} (h : parseSwitch host0 parts2 tag0 digest = some u) :
    (∃ nm, parts2 = [nm] ∧ parseDefaults nm host0 [] tag0 digest = some u) ∨
      (∃ rp nm, parts2 = [rp, nm] ∧ parseDefaults nm host0 rp tag0 digest = some u) := by
  match parts2 with
  | [nm] => exact Or.inl ⟨nm, rfl, h⟩
  | [rp, nm] => exact Or.inr ⟨rp, nm, rfl, h⟩
  | [] => exact absurd h (by simp [parseSwitch])
  | a :: b :: c :: rest => exact absurd h (by simp [parseSwitch])

theorem parseTag_inv {host0 : GoStr} {parts1 : List GoStr} {digest : GoStr}
    {u : GoURL} (h : parseTag host0 parts1 digest = some u) :
    (∃ lastP, parts1.getLast? = some lastP ∧ containsChar ':' lastP = true ∧
        parseSwitch host0 (parts1.dropLast ++ [(bisectChar ':' lastP).1])
          (bisectChar ':' lastP).2 digest = some u) ∨
      ((∀ lastP, parts1.getLast? = some lastP → containsChar ':' lastP = false) ∧
        parseSwitch host0 parts1 [] digest = some u) := by
  rw [parseTag] at h
  split at h
  · rename_i lastP hl
    split at h
    · rename_i hc
      exact Or.inl ⟨lastP, hl, hc, h⟩
    · rename_i hc
      refine Or.inr ⟨?_, h⟩
      intro x hx
      rw [hl] at hx
      cases Option.some.inj hx
      exact Bool.eq_false_iff.mpr hc
  · rename_i hl
    refine Or.inr ⟨?_, h⟩
    intro x hx
    rw [hl] at hx
    cases hx

theorem parseURLPart_inv {url digest : GoStr} {u : GoURL}
    (h : parseURLPart url digest = some u) :
    ∃ p0 rest, splitChar '/' url = p0 :: rest ∧
      (((containsChar '/' url && containsDotColon p0) = true ∧
          parseTag p0 rest digest = some u) ∨
        ((containsChar '/' url && containsDotColon p0) = false ∧
          parseTag [] (p0 :: rest) digest = some u)) := by
  rw [parseURLPart] at h
  split at h
  · exact absurd h (by simp)
  · rename_i p0 rest hs
    split at h
    · rename_i hc
      exact ⟨p0, rest, hs, Or.inl ⟨hc, h⟩⟩
    · rename_i hc
      exact ⟨p0, rest, hs, Or.inr ⟨Bool.eq_false_iff.mpr hc, h⟩⟩

theorem goParse_inv_cases {s : GoStr} {u : GoURL} (h : goParse s = some u) :
    ∃ url digest, containsChar '@' url = false ∧
      parseURLPart url digest = some u := by
  simp only [goParse] at h
  split at h
  · exact absurd h (by simp)
  · split at h
    · exact ⟨_, _, bisectChar_fst_not_contains '@' (goTrim s), h⟩
    · rename_i hat
      exact ⟨_, _, Bool.eq_false_iff.mpr hat, h⟩

theorem defaultHost_facts :
    defaultHost ≠ [] ∧ containsChar '/' defaultHost = false ∧
      containsChar '@' defaultHost = false ∧ containsDotColon defaultHost = true := by
  decide

theorem defaultRepository_facts :
    defaultRepository ≠ [] ∧ containsChar '/' defaultRepository = false ∧
      containsChar '@' defaultRepository = false := by
  decide

theorem defaultTag_facts :
    defaultTag ≠ [] ∧ containsChar '/' defaultTag = false ∧
      containsChar '@' defaultTag = false := by
  decide

theorem repoIf_facts {rp : GoStr} (h1 : containsChar '/' rp = false)
    (h2 : containsChar '@' rp = false) :
    (if rp = [] then defaultRepository else rp) ≠ [] ∧
      containsChar '/' (if rp = [] then defaultRepository else rp) = false ∧
      containsChar '@' (if rp = [] then defaultRepository else rp) = false := by
  split
  · exact defaultRepository_facts
  · exact ⟨by assumption, h1, h2⟩

theorem tagIf_facts {tg : GoStr} (h1 : containsChar '/' tg = false)
    (h2 : containsChar '@' tg = false) :
    (if tg = [] then defaultTag else tg) ≠ [] ∧
      containsChar '/' (if tg = [] then defaultTag else tg) = false ∧
      containsChar '@' (if tg = [] then defaultTag else tg) = false := by
  split
  · exact defaultTag_facts
  · exact ⟨by assumption, h1, h2⟩

/-- Every successfully parsed URL satisfies the structural invariants. -/
theorem goParse_parseInv {s : GoStr} {u : GoURL} (h : goParse s = some u) :
    ParseInv u := by
  obtain ⟨url, digest, hat, hpart⟩ := goParse_inv_cases h
  obtain ⟨p0, rest, hsplit, hcase⟩ := parseURLPart_inv hpart
  have memfacts : ∀ x ∈ splitChar '/' url,
      containsChar '/' x = false ∧ containsChar '@' x = false := by
    intro x hx
    exact ⟨not_contains_of_mem_splitChar hx,
      not_contains_of_mem_splitChar_of_not_contains hat hx⟩
  -- reduce both host cases to a statement about `parseTag host0 parts1`
  have main : ∀ host0 parts1,
      (∀ x ∈ parts1, x ∈ splitChar '/' url) →
      (host0 = [] ∨ (containsChar '/' host0 = false ∧ containsChar '@' host0 = false ∧
        containsDotColon host0 = true)) →
      parseTag host0 parts1 digest = some u → ParseInv u := by
    intro host0 parts1 hsub hhost htag
    have hostFacts : (if host0 = [] then defaultHost else host0) ≠ [] ∧
        containsChar '/' (if host0 = [] then defaultHost else host0) = false ∧
        containsChar '@' (if host0 = [] then defaultHost else host0) = false ∧
        containsDotColon (if host0 = [] then defaultHost else host0) = true := by
      rcases hhost with h0 | hne
      · rw [if_pos h0]; exact defaultHost_facts
      · have hne0 : host0 ≠ [] := by
          intro he; rw [he] at hne; exact absurd hne.2.2 (by decide)
        rw [if_neg hne0]; exact ⟨hne0, hne⟩
    -- facts common to every part of `parts1`
    have partFacts : ∀ x ∈ parts1,
        containsChar '/' x = false ∧ containsChar '@' x = false := by
      intro x hx; exact memfacts x (hsub x hx)
    rcases parseTag_inv htag with
      ⟨lastP, hlast, hcolon, hsw⟩ | ⟨hnocolon, hsw⟩
    · -- a tag was bisected off the last part
      have hparts1 : parts1.dropLast ++ [lastP] = parts1 :=
        List.dropLast_append_getLast? _ hlast
      have hlastmem : lastP ∈ parts1 := by
        rw [← hparts1]; exact List.mem_append_right _ (List.mem_singleton_self _)
      have hlastFacts := partFacts lastP hlastmem
      have nmFacts : containsChar '/' (bisectChar ':' lastP).1 = false ∧
          containsChar '@' (bisectChar ':' lastP).1 = false ∧
          containsChar ':' (bisectChar ':' lastP).1 = false :=
        ⟨(bisectChar_not_contains ':' '/' lastP hlastFacts.1).1,
          (bisectChar_not_contains ':' '@' lastP hlastFacts.2).1,
          bisectChar_fst_not_contains ':' lastP⟩
      have tgFacts : containsChar '/' (bisectChar ':' lastP).2 = false ∧
          containsChar '@' (bisectChar ':' lastP).2 = false :=
        ⟨(bisectChar_not_contains ':' '/' lastP hlastFacts.1).2,
          (bisectChar_not_contains ':' '@' lastP hlastFacts.2).2⟩
      rcases parseSwitch_inv hsw with ⟨nm, hps, hdef⟩ | ⟨rp, nm, hps, hdef⟩
      · -- one part: name only
        have hnm : nm = (bisectChar ':' lastP).1 := by
          rcases hd : parts1.dropLast with _ | ⟨a, as⟩
          · rw [hd] at hps; simpa using hps.symm
          · rw [hd] at hps
            exact absurd (congrArg List.length hps) (by simp)
        obtain ⟨hnmne, hu⟩ := parseDefaults_inv hdef
        subst hu; subst hnm
        have rpF := @repoIf_facts [] rfl rfl
        have tgF := tagIf_facts tgFacts.1 tgFacts.2
        exact ⟨hnmne, hostFacts.1, rpF.1, tgF.1, hostFacts.2.1, rpF.2.1,
          nmFacts.1, tgF.2.1, hostFacts.2.2.1, rpF.2.2, nmFacts.2.1, tgF.2.2,
          nmFacts.2.2, hostFacts.2.2.2⟩
      · -- two parts: repository and name
        have hdl : parts1.dropLast = [rp] ∧ nm = (bisectChar ':' lastP).1 := by
          rcases hd : parts1.dropLast with _ | ⟨a, as⟩
          · rw [hd] at hps
            exact absurd (congrArg List.length hps) (by simp)
          · rw [hd] at hps
            rcases as with _ | ⟨b, bs⟩
            · obtain ⟨h1, h2⟩ := List.cons.inj hps
              obtain ⟨h3, _⟩ := List.cons.inj h2
              exact ⟨congrArg (fun z => [z]) h1, h3.symm⟩
            · exact absurd (congrArg List.length hps) (by simp)
        have hrpmem : rp ∈ parts1 := by
          rw [← hparts1, hdl.1]
          exact List.mem_append_left _ (List.mem_singleton_self _)
        have hrpFacts := partFacts rp hrpmem
        obtain ⟨hnmne, hu⟩ := parseDefaults_inv hdef
        subst hu
        obtain ⟨hnm1, hnm2⟩ := hdl
        subst hnm2
        have rpF := repoIf_facts hrpFacts.1 hrpFacts.2
        have tgF := tagIf_facts tgFacts.1 tgFacts.2
        exact ⟨hnmne, hostFacts.1, rpF.1, tgF.1, hostFacts.2.1, rpF.2.1,
          nmFacts.1, tgF.2.1, hostFacts.2.2.1, rpF.2.2, nmFacts.2.1, tgF.2.2,
          nmFacts.2.2, hostFacts.2.2.2⟩
    · -- no colon in the last part: tag is empty, defaults to `latest`
      rcases parseSwitch_inv hsw with ⟨nm, hps, hdef⟩ | ⟨rp, nm, hps, hdef⟩
      · have hnmmem : nm ∈ parts1 := by rw [hps]; exact List.mem_singleton_self _
        have hnmFacts := partFacts nm hnmmem
        have hnmcolon : containsChar ':' nm = false := by
          apply hnocolon
          rw [hps]; rfl
        obtain ⟨hnmne, hu⟩ := parseDefaults_inv hdef
        subst hu
        have rpF := @repoIf_facts [] rfl rfl
        have tgF := @tagIf_facts [] rfl rfl
        exact ⟨hnmne, hostFacts.1, rpF.1, tgF.1, hostFacts.2.1, rpF.2.1,
          hnmFacts.1, tgF.2.1, hostFacts.2.2.1, rpF.2.2, hnmFacts.2, tgF.2.2,
          hnmcolon, hostFacts.2.2.2⟩
      · have hnmmem : nm ∈ parts1 := by
          rw [hps]; exact List.mem_cons_of_mem _ (List.mem_singleton_self _)
        have hrpmem : rp ∈ parts1 := by rw [hps]; exact List.mem_cons_self _ _
        have hnmFacts := partFacts nm hnmmem
        have hrpFacts := partFacts rp hrpmem
        have hnmcolon : containsChar ':' nm = false := by
          apply hnocolon
          rw [hps]; rfl
        obtain ⟨hnmne, hu⟩ := parseDefaults_inv hdef
        subst hu
        have rpF := repoIf_facts hrpFacts.1 hrpFacts.2
        have tgF := @tagIf_facts [] rfl rfl
        exact ⟨hnmne, hostFacts.1, rpF.1, tgF.1, hostFacts.2.1, rpF.2.1,
          hnmFacts.1, tgF.2.1, hostFacts.2.2.1, rpF.2.2, hnmFacts.2, tgF.2.2,
          hnmcolon, hostFacts.2.2.2⟩
  rcases hcase with ⟨hcond, htag⟩ | ⟨hcond, htag⟩
  · have hp0 : containsDotColon p0 = true := (Bool.and_eq_true _ _ |>.mp hcond).2
    have hp0mem : p0 ∈ splitChar '/' url := by rw [hsplit]; exact List.mem_cons_self _ _
    exact main p0 rest
      (by intro x hx; rw [hsplit]; exact List.mem_cons_of_mem _ hx)
      (Or.inr ⟨(memfacts p0 hp0mem).1, (memfacts p0 hp0mem).2, hp0⟩) htag
  · exact main [] (p0 :: rest) (by intro x hx; rw [hsplit]; exact hx) (Or.inl rfl) htag

/-! ### Re-parsing the canonical form -/

theorem parseURLPart_eq_of_split {url : GoStr} {p0 : GoStr} {rest : List GoStr}
    (hs : splitChar '/' url = p0 :: rest) (digest : GoStr) :
    parseURLPart url digest =
      if containsChar '/' url && containsDotColon p0 then parseTag p0 rest digest
      else parseTag [] (p0 :: rest) digest := by
  unfold parseURLPart
  rw [hs]

theorem parseTag_pair (host0 a b digest : GoStr) :
    parseTag host0 [a, b] digest =
      if containsChar ':' b then
        parseSwitch host0 [a, (bisectChar ':' b).1] (bisectChar ':' b).2 digest
      else parseSwitch host0 [a, b] [] digest := rfl

/-- Re-parsing the canonical form of a URL satisfying the parse invariants
recovers the URL, provided the canonical form is unchanged by
whitespace trimming. -/
theorem goParse_urlString {u : GoURL} (hinv : ParseInv u)
    (htrim : goTrim (urlString u) = urlString u) :
    goParse (urlString u) = some u := by
  obtain ⟨N, H, R, T, D⟩ := u
  have hNne : N ≠ [] := hinv.name_ne
  have hHne : H ≠ [] := hinv.host_ne
  have hRne : R ≠ [] := hinv.repo_ne
  have hTne : T ≠ [] := hinv.tag_ne
  have hHs : containsChar '/' H = false := hinv.host_slash
  have hRs : containsChar '/' R = false := hinv.repo_slash
  have hNs : containsChar '/' N = false := hinv.name_slash
  have hTs : containsChar '/' T = false := hinv.tag_slash
  have hHa : containsChar '@' H = false := hinv.host_at
  have hRa : containsChar '@' R = false := hinv.repo_at
  have hNa : containsChar '@' N = false := hinv.name_at
  have hTa : containsChar '@' T = false := hinv.tag_at
  have hNc : containsChar ':' N = false := hinv.name_colon
  have hHdc : containsDotColon H = true := hinv.host_dotcolon
  have hNTs : containsChar '/' (N ++ ':' :: T) = false := by
    rw [containsChar_append, hNs, containsChar_cons, hTs]; rfl
  have hNTa : containsChar '@' (N ++ ':' :: T) = false := by
    rw [containsChar_append, hNa, containsChar_cons, hTa]; rfl
  have hNTc : containsChar ':' (N ++ ':' :: T) = true := by
    rw [containsChar_append, hNc, containsChar_cons]; rfl
  have hCa : containsChar '@' (H ++ ('/' :: (R ++ ('/' :: (N ++ (':' :: T)))))) = false := by
    rw [containsChar_append, hHa, containsChar_cons, containsChar_append, hRa,
      containsChar_cons, hNTa]; rfl
  have hCs : containsChar '/' (H ++ ('/' :: (R ++ ('/' :: (N ++ (':' :: T)))))) = true := by
    rw [containsChar_append, hHs, containsChar_cons]; simp
  have hsplitCore : splitChar '/' (H ++ ('/' :: (R ++ ('/' :: (N ++ (':' :: T)))))) =
      [H, R, N ++ ':' :: T] := by
    rw [splitChar_append '/' H _ hHs, splitChar_append '/' R _ hRs,
      splitChar_of_not_contains '/' _ hNTs]
  have hbis : bisectChar ':' (N ++ ':' :: T) = (N, T) := bisectChar_append ':' N T hNc
  have hcond : (containsChar '/' (H ++ ('/' :: (R ++ ('/' :: (N ++ (':' :: T)))))) &&
      containsDotColon H) = true := by rw [hCs, hHdc]; rfl
  have hURL : ∀ d, parseURLPart (H ++ ('/' :: (R ++ ('/' :: (N ++ (':' :: T)))))) d =
      some ⟨N, H, R, T, d⟩ := by
    intro d
    rw [parseURLPart_eq_of_split hsplitCore d, if_pos hcond, parseTag_pair,
      if_pos hNTc, hbis]
    dsimp only
    rw [parseSwitch, parseDefaults, if_neg hNne, if_neg hHne, if_neg hRne,
      if_neg hTne]
  have husN : urlString ⟨N, H, R, T, D⟩ =
      (H ++ ('/' :: (R ++ ('/' :: (N ++ (':' :: T)))))) ++
        (if D = [] then [] else '@' :: D) := by
    rw [urlString, if_neg hNne]
  have hune : urlString ⟨N, H, R, T, D⟩ ≠ [] := by
    rw [husN]
    rcases H with _ | ⟨c, cs⟩
    · exact absurd rfl hHne
    · simp
  simp only [goParse]
  rw [htrim, if_neg hune]
  by_cases hD : D = []
  · have hus0 : urlString ⟨N, H, R, T, D⟩ =
        H ++ ('/' :: (R ++ ('/' :: (N ++ (':' :: T))))) := by
      rw [husN, if_pos hD, List.append_nil]
    have hat : containsChar '@' (urlString ⟨N, H, R, T, D⟩) = false := by
      rw [hus0]; exact hCa
    rw [if_neg (by rw [hat]; exact Bool.false_ne_true), hus0, hURL, hD]
  · have hus1 : urlString ⟨N, H, R, T, D⟩ =
        (H ++ ('/' :: (R ++ ('/' :: (N ++ (':' :: T)))))) ++ '@' :: D := by
      rw [husN, if_neg hD]
    have hat : containsChar '@' (urlString ⟨N, H, R, T, D⟩) = true := by
      rw [hus1, containsChar_append, hCa, containsChar_cons]; rfl
    have hbisAt : bisectChar '@' (urlString ⟨N, H, R, T, D⟩) =
        (H ++ ('/' :: (R ++ ('/' :: (N ++ (':' :: T))))), D) := by
      rw [hus1]
      exact bisectChar_append '@' _ D hCa
    rw [if_pos hat, hbisAt]
    exact hURL D

/-! ### Claim C7 — parse/format round-trip -/

/-- C7 (counterexample): the round-trip claim fails as stated.  The input
`"a:b @"` parses successfully (trimming removes nothing because the string
ends in `'@'`; the empty digest after `'@'` is dropped; the tag becomes
`"b "` with a trailing space), but its canonical form
`registry-1.docker.io/library/a:b ` ends in a space, which re-parsing
trims away, so the re-parsed tag is `"b"` and the round-trip is not the
identity. -/
theorem C7_roundtrip_counterexample :
    goParse "a:b @".toList =
      some ⟨"a".toList, "registry-1.docker.io".toList, "library".toList,
        "b ".toList, []⟩ ∧
    goParse (urlString ⟨"a".toList, "registry-1.docker.io".toList,
        "library".toList, "b ".toList, []⟩) =
      some ⟨"a".toList, "registry-1.docker.io".toList, "library".toList,
        "b".toList, []⟩ ∧
    ("b ".toList : GoStr) ≠ "b".toList := by
  exact ⟨by decide, by decide, by decide⟩

/-- C7 (amended): for every input that `Parse` accepts, re-parsing the
canonical form produced by `String` yields the same URL, **provided** the
canonical form is unchanged by the whitespace trimming that `Parse`
applies first (the only failures are inputs whose parsed tag ends in
whitespace while the digest is empty, as in the counterexample). -/
theorem C7_roundtrip (s : GoStr) (u : GoURL) (h : goParse s = some u)
    (htrim : goTrim (urlString u) = urlString u) :
    goParse (urlString u) = some u :=
  goParse_urlString (goParse_parseInv h) htrim

theorem C7_roundtrip_witness :
    goParse (urlString ⟨"ubuntu".toList, defaultHost, defaultRepository,
        defaultTag, []⟩) =
      some ⟨"ubuntu".toList, defaultHost, defaultRepository, defaultTag, []⟩ :=
  C7_roundtrip "ubuntu".toList _ (by decide) (by decide)

/-! ### Claim C8 — parse defaults

To state "a missing component becomes its default" over **every**
successful parse, the components the *input itself* supplies are read off
by the same stages `Parse` runs: the url part after trimming and the
digest bisection, the host-detection condition, the slash parts after
host removal, the tag bisection on the last part, and the arity switch.
A component the input does not supply is the empty string. -/

/-- The url `Parse` works on after `strings.Trim` and the `'@'`
bisection (the digest, if any, has been split off). -/
def parseURLOf (s : GoStr) : GoStr :=
  if containsChar '@' (goTrim s) then (bisectChar '@' (goTrim s)).1
  else goTrim s

/-- The host the input supplies: `parts[0]` when
`strings.Contains(url, "/") && strings.ContainsAny(parts[0], ".:")`
holds, empty otherwise. -/
def rawHost (url : GoStr) : GoStr :=
  match splitChar '/' url with
  | [] => []
  | p0 :: _ => if containsChar '/' url && containsDotColon p0 then p0 else []

/-- The slash parts remaining after host removal. -/
def partsAfterHost (url : GoStr) : List GoStr :=
  match splitChar '/' url with
  | [] => []
  | p0 :: rest =>
    if containsChar '/' url && containsDotColon p0 then rest else p0 :: rest

/-- The tag the input supplies: the part of the last slash component
after its first `':'`, empty when that component has no `':'`. -/
def rawTag (url : GoStr) : GoStr :=
  match (partsAfterHost url).getLast? with
  | some lastP =>
    if containsChar ':' lastP then (bisectChar ':' lastP).2 else []
  | none => []

/-- The slash parts after the tag bisection (the lists the arity switch
inspects). -/
def partsFinal (url : GoStr) : List GoStr :=
  match (partsAfterHost url).getLast? with
  | some lastP =>
    if containsChar ':' lastP then
      (partsAfterHost url).dropLast ++ [(bisectChar ':' lastP).1]
    else partsAfterHost url
  | none => partsAfterHost url

/-- The repository the input supplies: the first of exactly two parts,
empty otherwise. -/
def rawRepo (url : GoStr) : GoStr :=
  match partsFinal url with
  | [rp, _] => rp
  | _ => []

/-- The name the input supplies. -/
def rawName (url : GoStr) : GoStr :=
  match partsFinal url with
  | [nm] => nm
  | [_, nm] => nm
  | _ => []

/-- A successful `parseURLPart` produces exactly the raw components with
the defaults applied unconditionally: a missing (empty) host, repository
or tag becomes its default, a supplied one is kept verbatim. -/
theorem parseURLPart_fields {url digest : GoStr} {u : GoURL}
    (h : parseURLPart url digest = some u) :
    u.Name = rawName url ∧ u.Name ≠ [] ∧
      u.Host = (if rawHost url = [] then defaultHost else rawHost url) ∧
      u.Repository =
        (if rawRepo url = [] then defaultRepository else rawRepo url) ∧
      u.Tag = (if rawTag url = [] then defaultTag else rawTag url) ∧
      u.Digest = digest := by
  obtain ⟨p0, rest, hsplit, hcase⟩ := parseURLPart_inv h
  have main : ∀ host0 parts1, host0 = rawHost url →
      parts1 = partsAfterHost url →
      parseTag host0 parts1 digest = some u →
      u.Name = rawName url ∧ u.Name ≠ [] ∧
        u.Host = (if rawHost url = [] then defaultHost else rawHost url) ∧
        u.Repository =
          (if rawRepo url = [] then defaultRepository else rawRepo url) ∧
        u.Tag = (if rawTag url = [] then defaultTag else rawTag url) ∧
        u.Digest = digest := by
    intro host0 parts1 hh hp htag
    subst hh
    subst hp
    rcases parseTag_inv htag with ⟨lastP, hlast, hcolon, hsw⟩ | ⟨hnocolon, hsw⟩
    · -- the last part carries a tag
      have hT : rawTag url = (bisectChar ':' lastP).2 := by
        simp only [rawTag, hlast]
        rw [if_pos hcolon]
      have hPF : partsFinal url =
          (partsAfterHost url).dropLast ++ [(bisectChar ':' lastP).1] := by
        simp only [partsFinal, hlast]
        rw [if_pos hcolon]
      rcases parseSwitch_inv hsw with ⟨nm, hps, hdef⟩ | ⟨rp, nm, hps, hdef⟩
      · have hPFn : partsFinal url = [nm] := hPF.trans hps
        have hR : rawRepo url = [] := by simp only [rawRepo, hPFn]
        have hN : rawName url = nm := by simp only [rawName, hPFn]
        obtain ⟨hnmne, hu⟩ := parseDefaults_inv hdef
        subst hu
        refine ⟨hN.symm, hnmne, rfl, ?_, ?_, rfl⟩
        · rw [hR]
        · rw [hT]
      · have hPFn : partsFinal url = [rp, nm] := hPF.trans hps
        have hR : rawRepo url = rp := by simp only [rawRepo, hPFn]
        have hN : rawName url = nm := by simp only [rawName, hPFn]
        obtain ⟨hnmne, hu⟩ := parseDefaults_inv hdef
        subst hu
        refine ⟨hN.symm, hnmne, rfl, ?_, ?_, rfl⟩
        · rw [hR]
        · rw [hT]
    · -- no tag in the last part
      have hT : rawTag url = [] := by
        rcases hgl : (partsAfterHost url).getLast? with _ | lastP
        · simp only [rawTag, hgl]
        · simp only [rawTag, hgl]
          rw [if_neg (by rw [hnocolon lastP hgl]; exact Bool.false_ne_true)]
      have hPF : partsFinal url = partsAfterHost url := by
        rcases hgl : (partsAfterHost url).getLast? with _ | lastP
        · simp only [partsFinal, hgl]
        · simp only [partsFinal, hgl]
          rw [if_neg (by rw [hnocolon lastP hgl]; exact Bool.false_ne_true)]
      rcases parseSwitch_inv hsw with ⟨nm, hps, hdef⟩ | ⟨rp, nm, hps, hdef⟩
      · have hPFn : partsFinal url = [nm] := hPF.trans hps
        have hR : rawRepo url = [] := by simp only [rawRepo, hPFn]
        have hN : rawName url = nm := by simp only [rawName, hPFn]
        obtain ⟨hnmne, hu⟩ := parseDefaults_inv hdef
        subst hu
        refine ⟨hN.symm, hnmne, rfl, ?_, ?_, rfl⟩
        · rw [hR]
        · rw [hT]
      · have hPFn : partsFinal url = [rp, nm] := hPF.trans hps
        have hR : rawRepo url = rp := by simp only [rawRepo, hPFn]
        have hN : rawName url = nm := by simp only [rawName, hPFn]
        obtain ⟨hnmne, hu⟩ := parseDefaults_inv hdef
        subst hu
        refine ⟨hN.symm, hnmne, rfl, ?_, ?_, rfl⟩
        · rw [hR]
        · rw [hT]
  rcases hcase with ⟨hc, htag⟩ | ⟨hc, htag⟩
  · refine main p0 rest ?_ ?_ htag
    · simp only [rawHost, hsplit]
      rw [if_pos hc]
    · simp only [partsAfterHost, hsplit]
      rw [if_pos hc]
  · refine main [] (p0 :: rest) ?_ ?_ htag
    · simp only [rawHost, hsplit]
      rw [if_neg (by rw [hc]; exact Bool.false_ne_true)]
    · simp only [partsAfterHost, hsplit]
      rw [if_neg (by rw [hc]; exact Bool.false_ne_true)]

/-- C8: `Parse` fills the defaults on **every** successful parse.
Concretely `"ubuntu"` parses to `{host: registry-1.docker.io,
repository: library, name: ubuntu, tag: latest}`; and universally, every
successfully parsed URL has the name the input supplies (non-empty — an
empty name is the `"could not find a name for %s"` error), while its
host, repository and tag are the input-supplied components when present
and `registry-1.docker.io`, `library` and `latest` respectively when the
input supplies none. -/
theorem C8_parse_defaults :
    goParse "ubuntu".toList =
      some ⟨"ubuntu".toList, defaultHost, defaultRepository, defaultTag, []⟩ ∧
    ∀ s u, goParse s = some u →
      u.Name = rawName (parseURLOf s) ∧ u.Name ≠ [] ∧
      u.Host = (if rawHost (parseURLOf s) = [] then defaultHost
        else rawHost (parseURLOf s)) ∧
      u.Repository = (if rawRepo (parseURLOf s) = [] then defaultRepository
        else rawRepo (parseURLOf s)) ∧
      u.Tag = (if rawTag (parseURLOf s) = [] then defaultTag
        else rawTag (parseURLOf s)) := by
  refine ⟨by decide, ?_⟩
  intro s u h
  simp only [goParse] at h
  split at h
  · exact absurd h (by simp)
  · split at h
    · rename_i hat
      have hurl : parseURLOf s = (bisectChar '@' (goTrim s)).1 := by
        rw [parseURLOf, if_pos hat]
      have hf := parseURLPart_fields h
      rw [hurl]
      exact ⟨hf.1, hf.2.1, hf.2.2.1, hf.2.2.2.1, hf.2.2.2.2.1⟩
    · rename_i hat
      have hurl : parseURLOf s = goTrim s := by
        rw [parseURLOf, if_neg hat]
      have hf := parseURLPart_fields h
      rw [hurl]
      exact ⟨hf.1, hf.2.1, hf.2.2.1, hf.2.2.2.1, hf.2.2.2.2.1⟩

theorem C8_parse_defaults_witness :
    ("ubuntu".toList : GoStr) = rawName (parseURLOf "ubuntu:18.04".toList) ∧
    ("ubuntu".toList : GoStr) ≠ [] ∧
    ("registry-1.docker.io".toList : GoStr) =
      (if rawHost (parseURLOf "ubuntu:18.04".toList) = [] then defaultHost
        else rawHost (parseURLOf "ubuntu:18.04".toList)) ∧
    ("library".toList : GoStr) =
      (if rawRepo (parseURLOf "ubuntu:18.04".toList) = [] then
        defaultRepository
        else rawRepo (parseURLOf "ubuntu:18.04".toList)) ∧
    ("18.04".toList : GoStr) =
      (if rawTag (parseURLOf "ubuntu:18.04".toList) = [] then defaultTag
        else rawTag (parseURLOf "ubuntu:18.04".toList)) :=
  C8_parse_defaults.2 "ubuntu:18.04".toList
    ⟨"ubuntu".toList, "registry-1.docker.io".toList, "library".toList,
      "18.04".toList, []⟩ (by decide)

/-! ## Go path helpers (`path.Clean`, `filepath.Join`, `Dir`, `Base`)

The extractor joins and cleans slash-separated paths via the Go standard
library.  `Clean` is modelled by its component algorithm: split on `'/'`,
drop empty and `"."` components, resolve `".."` against a stack (dropping
it at the root, keeping it at the front of relative paths). -/

/-- The `".."`-resolution stack walk of Go `path.Clean`, operating on the
slash components in order; `stack` holds the output components reversed. -/
def cleanStack (rooted : Bool) : List GoStr → List GoStr → List GoStr
  | [], stack => stack.reverse
  | c :: rest, stack =>
    if c = [] ∨ c = ['.'] then cleanStack rooted rest stack
    else if c = ['.', '.'] then
      match stack with
      | top :: more =>
        if top = ['.', '.'] then cleanStack rooted rest (c :: top :: more)
        else cleanStack rooted rest more
      | [] =>
        if rooted then cleanStack rooted rest []
        else cleanStack rooted rest [c]
    else cleanStack rooted rest (c :: stack)

/-- Join components with `'/'`. -/
def joinComponents : List GoStr → GoStr
  | [] => []
  | [x] => x
  | x :: rest => x ++ '/' :: joinComponents rest

/-- Go `path.Clean` (for the slash-separated paths the extractor builds). -/
def goClean (p : GoStr) : GoStr :=
  if p = [] then ['.']
  else
    let rooted := p.head? = some '/'
    let body := joinComponents (cleanStack rooted (splitChar '/' p) [])
    if rooted then '/' :: body
    else if body = [] then ['.']
    else body

/-- Go `path/filepath.Join` (Unix): drop empty elements, join the rest
with `'/'` and `Clean` the result; all-empty input yields `""`. -/
def goJoinList (elems : List GoStr) : GoStr :=
  let ne := elems.filter (fun e => e ≠ [])
  if ne = [] then [] else goClean (joinComponents ne)

/-- `filepath.Join(a, b)`. -/
def goJoin (a b : GoStr) : GoStr := goJoinList [a, b]

/-- `filepath.Join(a, b, c)`. -/
def goJoin3 (a b c : GoStr) : GoStr := goJoinList [a, b, c]

/-- Go `filepath.Dir`: everything up to and including the final slash,
cleaned; `"."` when there is no slash. -/
def goDirOf (p : GoStr) : GoStr :=
  let after := (p.reverse.takeWhile (fun c => c ≠ '/')).reverse
  if after.length = p.length then ['.']
  else goClean (p.take (p.length - after.length))

/-- Go `filepath.Base`: the last element of the path after stripping
trailing slashes; `"."` for the empty path, `"/"` for all-slash paths. -/
def goBase (p : GoStr) : GoStr :=
  if p = [] then ['.']
  else
    let q := (p.reverse.dropWhile (fun c => c == '/')).reverse
    if q = [] then ['/']
    else (q.reverse.takeWhile (fun c => c ≠ '/')).reverse

/-- Does `l` start with `pre` (Go `strings.HasPrefix`)? -/
def strStarts (pre l : GoStr) : Bool :=
  match pre, l with
  | [], _ => true
  | _ :: _, [] => false
  | a :: as, b :: bs => a == b && strStarts as bs

/-- Does `l` end with `suf` (Go `strings.HasSuffix`)? -/
def strEnds (suf l : GoStr) : Bool :=
  strStarts suf.reverse l.reverse

/-! ## The layer extractor (`pkg/image/untar.go`) -/

/-- Does the entry name match the `unsafepath` pattern `/?\.\./`?
An optional leading `'/'` followed by `"../"`: as a *search* (Go
`MatchString` looks for the pattern anywhere), this is exactly
"contains the substring `../`". -/
def hasDotDotSlash : GoStr → Bool
  | '.' :: '.' :: '/' :: _ => true
  | _ :: rest => hasDotDotSlash rest
  | [] => false

/-- `isWhiteoutPath`: the basename starts with `".wh."`. -/
def isWhiteoutPathGo (p : GoStr) : Bool :=
  strStarts ".wh.".toList (goBase p)

/-- A tar header, reduced to the fields the extractor reads. -/
structure TarHeader where
  name : GoStr
  typeflag : Nat
  linkname : GoStr
  mode : Nat
deriving DecidableEq, Repr

/-- `tar.TypeReg` -/
def typeReg : Nat := 0

/-- `tar.TypeLink` -/
def typeLink : Nat := 1

/-- `tar.TypeSymlink` -/
def typeSymlink : Nat := 2

/-- `tar.TypeDir` -/
def typeDir : Nat := 5

/-- The filesystem deletion performed by `applyWhiteout`: either an opaque
whiteout clearing a directory, or a simple whiteout removing one target. -/
inductive WhiteoutAction where
  | opq (base : GoStr)
  | simple (target : GoStr)
deriving DecidableEq, Repr

/-- `applyWhiteout(dst, whiteout)`: `.wh..wh..opq` clears the containing
directory (`path.Join(dst, filepath.Dir(whiteout))`); any other `.wh.<X>`
removes `path.Join(dst, filepath.Dir(whiteout), filepath.Base(whiteout)[4:])`. -/
def whiteoutActionOf (dst w : GoStr) : WhiteoutAction :=
  if strEnds ".wh..wh..opq".toList w then .opq (goJoin dst (goDirOf w))
  else .simple (goJoin3 dst (goDirOf w) ((goBase w).drop 4))

/-- The state threaded through pass 1: the whiteout deletions applied so
far (in order) and the recorded `dirmodes` entries. -/
structure Pass1State where
  whiteouts : List WhiteoutAction
  dirmodes : List (GoStr × Nat)
deriving DecidableEq, Repr

/-- One pass-1 handler call of `untarLayer`, in the Go statement order:
first apply the whiteout if the basename starts with `.wh.`, **then**
check the name against `unsafepath` and abort, then create/record
directories.  On the error path the returned state still contains the
whiteout that was already applied. -/
def pass1Step (dst : GoStr) (h : TarHeader) (st : Pass1State) :
    Except GoStr Pass1State × Pass1State :=
  let st1 :=
    if isWhiteoutPathGo h.name then
      { st with whiteouts := st.whiteouts ++ [whiteoutActionOf dst h.name] }
    else st
  if hasDotDotSlash h.name then
    (.error ("refusing to extract unsafe path: ".toList ++ h.name), st1)
  else if h.typeflag = typeDir then
    let st2 := { st1 with dirmodes := st1.dirmodes ++ [(goJoin dst h.name, h.mode)] }
    (.ok st2, st2)
  else (.ok st1, st1)

/-- Pass 1 of `untarLayer` over a whole layer: fold `pass1Step` over the
tar entries, stopping at the first error but reporting the filesystem
state reached so far. -/
def pass1 (dst : GoStr) : List TarHeader → Pass1State →
    Except GoStr Unit × Pass1State
  | [], st => (.ok (), st)
  | h :: rest, st =>
    match pass1Step dst h st with
    | (.error e, st1) => (.error e, st1)
    | (.ok _, st1) => pass1 dst rest st1

/-- Pass 3 of `untarLayer`, per entry: skip non-link entries
(`some none`); for link entries the Go code reads `h.Linkname[0]`
unconditionally, which panics on an empty linkname — modelled as `none`.
Otherwise resolve the link target: a linkname starting with `'.'` or
containing no `'/'` is joined to the directory of the new link, any other
linkname is joined to the destination root. -/
structure LinkAction where
  newPath : GoStr
  oldPath : GoStr
  hard : Bool
  symTarget : GoStr
deriving DecidableEq, Repr

def pass3Step (dst : GoStr) (h : TarHeader) : Option (Option LinkAction) :=
  if h.typeflag ≠ typeLink ∧ h.typeflag ≠ typeSymlink then some none
  else
    match h.linkname with
    | [] => none
    | c :: _ =>
      let np := goJoin dst h.name
      let op :=
        if c = '.' ∨ containsChar '/' h.linkname = false then
          goJoin (goDirOf np) h.linkname
        else goJoin dst h.linkname
      some (some ⟨np, op, h.typeflag == typeLink, h.linkname⟩)

/-! ### Claim C2 — unsafe-path rejection vs. whiteout application -/

/-- C2: the ordering half of the claim is false of the code and the claim
is right about the intended behaviour — a code bug.  Pass 1 of
`untarLayer` applies whiteouts *before* the `unsafepath` check: for the
single entry named `../.wh.x` the layer is indeed rejected with
`refusing to extract unsafe path`, but the simple whiteout has already
been applied, and its resolved target `path.Join(dst, "..", "x") = /x`
lies outside the destination `/d` — the parent-escaping whiteout modifies
the filesystem before the rejection, contradicting the claim's
"pass 1 rejects the entry first". -/
theorem C2_unsafe_whiteout_applied_before_rejection :
    (pass1 "/d".toList [⟨"../.wh.x".toList, typeReg, [], 0⟩] ⟨[], []⟩).1 =
      .error ("refusing to extract unsafe path: ../.wh.x".toList) ∧
    (pass1 "/d".toList [⟨"../.wh.x".toList, typeReg, [], 0⟩] ⟨[], []⟩).2.whiteouts =
      [.simple "/x".toList] ∧
    strStarts "/d/".toList "/x".toList = false := by
  exact ⟨rfl, rfl, rfl⟩

/-! ### Claim C4 — hard-link target resolution -/

/-- C4: pass 3 of `untarLayer` resolves link targets exactly as claimed:
a linkname beginning with `'.'` or containing no `'/'` is joined to the
directory of the new link path, any other linkname is joined to the
destination root; in particular a hard link with linkname `a` at path
`b/c` resolves to `<dest>/b/a`, not `<dest>/a`. -/
theorem C4_hardlink_resolution :
    (∀ dst h c rest, h.linkname = c :: rest →
      (h.typeflag = typeLink ∨ h.typeflag = typeSymlink) →
      pass3Step dst h = some (some
        ⟨goJoin dst h.name,
          if c = '.' ∨ containsChar '/' h.linkname = false then
            goJoin (goDirOf (goJoin dst h.name)) h.linkname
          else goJoin dst h.linkname,
          h.typeflag == typeLink, h.linkname⟩)) ∧
    pass3Step "/d".toList ⟨"b/c".toList, typeLink, "a".toList, 0⟩ =
      some (some ⟨"/d/b/c".toList, "/d/b/a".toList, true, "a".toList⟩) ∧
    goJoin "/d".toList "a".toList = "/d/a".toList ∧
    ("/d/b/a".toList : GoStr) ≠ "/d/a".toList := by
  refine ⟨?_, by decide, by decide, by decide⟩
  intro dst h c rest hln hty
  have hty2 : ¬(h.typeflag ≠ typeLink ∧ h.typeflag ≠ typeSymlink) := by
    rcases hty with h1 | h1
    · intro hcc; exact hcc.1 h1
    · intro hcc; exact hcc.2 h1
  simp only [pass3Step, hln]
  rw [if_neg hty2]

theorem C4_hardlink_resolution_witness :
    pass3Step "/e".toList ⟨"b/c".toList, typeLink, "a".toList, 0⟩ =
      some (some ⟨"/e/b/c".toList, "/e/b/a".toList, true, "a".toList⟩) := by
  have h := C4_hardlink_resolution.1 "/e".toList
    ⟨"b/c".toList, typeLink, "a".toList, 0⟩ 'a' [] rfl (Or.inl rfl)
  rw [h]
  decide

/-! ### Claim C9 — empty linkname panics in pass 3 -/

/-- C9: for every hard-link or symlink entry, pass 3 reads
`h.Linkname[0]` unconditionally; with an empty linkname this indexing
panics (modelled as `none`) instead of returning an error, and with a
non-empty linkname the handler is total. -/
theorem C9_empty_linkname_panics :
    (∀ dst h, (h.typeflag = typeLink ∨ h.typeflag = typeSymlink) →
      ((h.linkname = [] → pass3Step dst h = none) ∧
        (h.linkname ≠ [] → (pass3Step dst h).isSome = true))) ∧
    pass3Step "/d".toList ⟨"b/c".toList, typeLink, [], 0⟩ = none := by
  refine ⟨?_, by decide⟩
  intro dst h hty
  have hty2 : ¬(h.typeflag ≠ typeLink ∧ h.typeflag ≠ typeSymlink) := by
    rcases hty with h1 | h1
    · intro hcc; exact hcc.1 h1
    · intro hcc; exact hcc.2 h1
  constructor
  · intro hln
    simp only [pass3Step, hln]
    rw [if_neg hty2]
  · intro hln
    rcases hl : h.linkname with _ | ⟨c, cs⟩
    · exact absurd hl hln
    · simp only [pass3Step, hl]
      rw [if_neg hty2]
      rfl

theorem C9_empty_linkname_panics_witness :
    pass3Step "/w".toList ⟨"q".toList, typeSymlink, [], 0⟩ = none :=
  (C9_empty_linkname_panics.1 "/w".toList ⟨"q".toList, typeSymlink, [], 0⟩
    (Or.inr rfl)).1 rfl

/-! ## `setDirectoryPermissions` (`pkg/image/untar.go`) -/

/-- The outcome of `os.Stat` as the function distinguishes it:
`os.IsNotExist`, a directory, or an existing non-directory. -/
inductive StatRes where
  | notExist
  | isDir
  | isFile
deriving DecidableEq, Repr

/-- The collection loop of `setDirectoryPermissions`: paths that no longer
exist are skipped, an existing non-directory is the fatal
`"not a directory: %s"` error, directories are kept. -/
def collectDirs (stat : GoStr → StatRes) :
    List (GoStr × Nat) → Except GoStr (List (GoStr × Nat))
  | [] => .ok []
  | (p, m) :: rest =>
    match stat p with
    | .notExist => collectDirs stat rest
    | .isFile => .error ("not a directory: ".toList ++ p)
    | .isDir =>
      match collectDirs stat rest with
      | .error e => .error e
      | .ok l => .ok ((p, m) :: l)

/-- Insertion step of the `sort.Slice(order, len(order[j]) > len(order[k]))`
sort: keep longer paths in front. -/
def insertByLen (x : GoStr × Nat) : List (GoStr × Nat) → List (GoStr × Nat)
  | [] => [x]
  | y :: ys => if x.1.length ≤ y.1.length then y :: insertByLen x ys else x :: y :: ys

/-- Sort by non-increasing path length (the Go code sorts with the
comparator `len(order[j]) > len(order[k])`; ties are ordered arbitrarily
there and deterministically here). -/
def sortByLenDesc (l : List (GoStr × Nat)) : List (GoStr × Nat) :=
  l.foldr insertByLen []

/-- `setDirectoryPermissions`: collect the still-existing directories (with
the skip/error discipline above), sort by decreasing path length, and
return the ordered `chmod` sequence that the final loop applies
(`os.Chmod` outcomes themselves are not modelled). -/
def setDirectoryPermissions (stat : GoStr → StatRes)
    (dirmodes : List (GoStr × Nat)) : Except GoStr (List (GoStr × Nat)) :=
  match collectDirs stat dirmodes with
  | .error e => .error e
  | .ok order => .ok (sortByLenDesc order)

theorem mem_insertByLen {x y : GoStr × Nat} {l : List (GoStr × Nat)} :
    y ∈ insertByLen x l ↔ y = x ∨ y ∈ l := by
  induction l with
  | nil => simp [insertByLen]
  | cons z zs ih =>
    simp only [insertByLen]
    split
    · simp only [List.mem_cons, ih]
      tauto
    · simp [List.mem_cons]

theorem pairwise_insertByLen {x : GoStr × Nat} {l : List (GoStr × Nat)}
    (h : l.Pairwise (fun a b => b.1.length ≤ a.1.length)) :
    (insertByLen x l).Pairwise (fun a b => b.1.length ≤ a.1.length) := by
  induction l with
  | nil => simp [insertByLen]
  | cons y ys ih =>
    obtain ⟨hy, hys⟩ := List.pairwise_cons.mp h
    simp only [insertByLen]
    split
    · rename_i hle
      refine List.pairwise_cons.mpr ⟨?_, ih hys⟩
      intro z hz
      rcases mem_insertByLen.mp hz with hzx | hzys
      · subst hzx; exact hle
      · exact hy z hzys
    · rename_i hgt
      refine List.pairwise_cons.mpr ⟨?_, h⟩
      intro z hz
      rcases List.mem_cons.mp hz with hzy | hzys
      · subst hzy; exact Nat.le_of_lt (Nat.lt_of_not_le hgt)
      · exact Nat.le_trans (hy z hzys) (Nat.le_of_lt (Nat.lt_of_not_le hgt))

theorem sortByLenDesc_pairwise (l : List (GoStr × Nat)) :
    (sortByLenDesc l).Pairwise (fun a b => b.1.length ≤ a.1.length) := by
  induction l with
  | nil => simp [sortByLenDesc]
  | cons x xs ih => exact pairwise_insertByLen ih

theorem mem_sortByLenDesc {y : GoStr × Nat} {l : List (GoStr × Nat)} :
    y ∈ sortByLenDesc l ↔ y ∈ l := by
  induction l with
  | nil => simp [sortByLenDesc]
  | cons x xs ih =>
    simp only [sortByLenDesc, List.foldr_cons, mem_insertByLen, List.mem_cons]
    rw [show xs.foldr insertByLen [] = sortByLenDesc xs from rfl] at *
    tauto

theorem collectDirs_error_iff (stat : GoStr → StatRes)
    (dm : List (GoStr × Nat)) :
    (∃ e, collectDirs stat dm = .error e) ↔
      ∃ p m, (p, m) ∈ dm ∧ stat p = .isFile := by
  induction dm with
  | nil =>
    constructor
    · rintro ⟨e, he⟩; cases he
    · rintro ⟨p, m, hm, _⟩; cases hm
  | cons pm rest ih =>
    obtain ⟨p, m⟩ := pm
    rcases hstat : stat p with _ | _ | _
    · -- notExist: the entry is skipped
      constructor
      · intro he
        simp only [collectDirs, hstat] at he
        obtain ⟨q, n, hq, hf⟩ := ih.mp he
        exact ⟨q, n, List.mem_cons_of_mem _ hq, hf⟩
      · rintro ⟨q, n, hq, hf⟩
        rcases List.mem_cons.mp hq with heq | hmem
        · rw [Prod.mk.injEq] at heq
          rw [heq.1] at hf
          exact absurd (hstat.symm.trans hf) (by decide)
        · obtain ⟨e, he⟩ := ih.mpr ⟨q, n, hmem, hf⟩
          refine ⟨e, ?_⟩
          simp only [collectDirs, hstat]
          exact he
    · -- isDir: the entry is kept, errors come from the rest
      constructor
      · intro he
        simp only [collectDirs, hstat] at he
        rcases hr : collectDirs stat rest with e | l
        · obtain ⟨q, n, hq, hf⟩ := ih.mp ⟨e, hr⟩
          exact ⟨q, n, List.mem_cons_of_mem _ hq, hf⟩
        · rw [hr] at he
          obtain ⟨e, he⟩ := he
          cases he
      · rintro ⟨q, n, hq, hf⟩
        rcases List.mem_cons.mp hq with heq | hmem
        · rw [Prod.mk.injEq] at heq
          rw [heq.1] at hf
          exact absurd (hstat.symm.trans hf) (by decide)
        · obtain ⟨e, he⟩ := ih.mpr ⟨q, n, hmem, hf⟩
          refine ⟨e, ?_⟩
          simp only [collectDirs, hstat, he]
    · -- isFile: immediate error
      constructor
      · intro _
        exact ⟨p, m, List.mem_cons_self _ _, hstat⟩
      · intro _
        refine ⟨"not a directory: ".toList ++ p, ?_⟩
        simp only [collectDirs, hstat]

theorem collectDirs_ok_mem (stat : GoStr → StatRes) {dm l : List (GoStr × Nat)}
    (h : collectDirs stat dm = .ok l) :
    ∀ pm : GoStr × Nat, pm ∈ l ↔ pm ∈ dm ∧ stat pm.1 = .isDir := by
  induction dm generalizing l with
  | nil =>
    injection h with h
    subst h
    simp
  | cons pm0 rest ih =>
    obtain ⟨p, m⟩ := pm0
    rcases hstat : stat p with _ | _ | _
    · -- notExist
      simp only [collectDirs, hstat] at h
      intro pm
      constructor
      · intro hl
        obtain ⟨hmem, hdir⟩ := (ih h pm).mp hl
        exact ⟨List.mem_cons_of_mem _ hmem, hdir⟩
      · rintro ⟨hq, hf⟩
        rcases List.mem_cons.mp hq with heq | hmem
        · subst heq
          exact absurd (hstat.symm.trans hf) (by decide)
        · exact (ih h pm).mpr ⟨hmem, hf⟩
    · -- isDir
      simp only [collectDirs, hstat] at h
      rcases hr : collectDirs stat rest with e | l0
      · rw [hr] at h; cases h
      · rw [hr] at h
        injection h with h
        subst h
        intro pm
        rw [List.mem_cons]
        constructor
        · rintro (rfl | hm)
          · exact ⟨List.mem_cons_self _ _, hstat⟩
          · obtain ⟨hmem, hdir⟩ := (ih hr pm).mp hm
            exact ⟨List.mem_cons_of_mem _ hmem, hdir⟩
        · rintro ⟨hq, hf⟩
          rcases List.mem_cons.mp hq with heq | hmem
          · exact Or.inl heq
          · exact Or.inr ((ih hr pm).mpr ⟨hmem, hf⟩)
    · -- isFile
      simp only [collectDirs, hstat] at h
      cases h

/-- `true` iff `pre` is a proper prefix marking `l` as a path strictly
below the directory `pre` (i.e. `l` starts with `pre ++ "/"`). -/
theorem strStarts_length {pre l : GoStr} (h : strStarts pre l = true) :
    pre.length ≤ l.length := by
  induction pre generalizing l with
  | nil => simp
  | cons a as ih =>
    cases l with
    | nil => cases h
    | cons b bs =>
      simp only [strStarts, Bool.and_eq_true] at h
      simpa using ih h.2

/-! ### Claim C5 — deferred directory modes -/

/-- C5: `setDirectoryPermissions` emits its `chmod` sequence sorted by
non-increasing path length; recorded paths that no longer exist are
skipped without error; an error is returned exactly when some recorded
path exists but is not a directory.  Because a strict subdirectory is
strictly longer than its parent, the length ordering chmods every child
before any of its ancestors: the last conjunct shows that whenever entry
`j` lies strictly below entry `i`'s directory, `j` is applied first. -/
theorem C5_setDirectoryPermissions (stat : GoStr → StatRes)
    (dm : List (GoStr × Nat)) :
    ((∃ e, setDirectoryPermissions stat dm = .error e) ↔
      ∃ p m, (p, m) ∈ dm ∧ stat p = .isFile) ∧
    (∀ res, setDirectoryPermissions stat dm = .ok res →
      (∀ pm, pm ∈ res ↔ pm ∈ dm ∧ stat pm.1 = .isDir) ∧
      res.Pairwise (fun a b => b.1.length ≤ a.1.length) ∧
      (∀ i j : Fin res.length,
        strStarts ((res.get i).1 ++ ['/']) ((res.get j).1) = true → j < i)) := by
  constructor
  · rcases hr : collectDirs stat dm with e | order
    · constructor
      · intro _
        exact (collectDirs_error_iff stat dm).mp ⟨e, hr⟩
      · intro _
        refine ⟨e, ?_⟩
        simp only [setDirectoryPermissions, hr]
    · constructor
      · rintro ⟨e, he⟩
        simp only [setDirectoryPermissions, hr] at he
        cases he
      · intro hex
        obtain ⟨e, he⟩ := (collectDirs_error_iff stat dm).mpr hex
        rw [he] at hr
        cases hr
  · intro res h
    rcases hr : collectDirs stat dm with e | order
    · simp only [setDirectoryPermissions, hr] at h
      cases h
    · simp only [setDirectoryPermissions, hr] at h
      injection h with h
      subst h
      have hpw := sortByLenDesc_pairwise order
      refine ⟨?_, hpw, ?_⟩
      · intro pm
        rw [mem_sortByLenDesc]
        exact collectDirs_ok_mem stat hr pm
      · intro i j hpre
        have hlen : ((sortByLenDesc order).get i).1.length + 1 ≤
            ((sortByLenDesc order).get j).1.length := by
          have := strStarts_length hpre
          simpa using this
        by_contra hji
        have hij : i ≤ j := Fin.not_lt.mp hji
        rcases Nat.lt_or_ge i.1 j.1 with hlt | hge
        · have := (List.pairwise_iff_get.mp hpw) i j hlt
          omega
        · have hieq : i.1 = j.1 := Nat.le_antisymm (Fin.le_def.mp hij) hge
          have : i = j := Fin.ext hieq
          subst this
          omega

/-- A concrete `os.Stat` environment for evaluating
`setDirectoryPermissions`: `/a` and `/a/b` are directories, everything
else is gone. -/
def statEx : GoStr → StatRes := fun p =>
  if p = "/a/b".toList then .isDir
  else if p = "/a".toList then .isDir
  else .notExist

/-- A concrete recorded `dirmodes` map: parent before child, plus a path
removed by a later whiteout. -/
def dmEx : List (GoStr × Nat) :=
  [("/a".toList, 493), ("/a/b".toList, 320), ("/gone".toList, 448)]

theorem C5_setDirectoryPermissions_witness :
    ("/a/b".toList, (320 : Nat)) ∈ dmEx ∧
      statEx "/a/b".toList = StatRes.isDir :=
  (((C5_setDirectoryPermissions statEx dmEx).2
      [("/a/b".toList, 320), ("/a".toList, 493)] rfl).1
    ("/a/b".toList, 320)).mp (by decide)

/-! ## The `Readdir` loop of `applyOpaqueWhiteout` (`pkg/image/untar.go`) -/

/-- The error component of one `f.Readdir(buffer)` call: `io.EOF`, no
error, or any other error. -/
inductive ReaddirErr where
  | eof
  | noErr
  | other (msg : GoStr)
deriving DecidableEq, Repr

/-- One directory entry as seen by the loop body. -/
structure DirEntryGo where
  ename : GoStr
  entryDirQ : Bool
deriving DecidableEq, Repr

/-- The loop body over one `Readdir` batch: remove each entry in order
(`os.RemoveAll` for directories, then `os.Remove`); `some err` is the
first removal failure, which the body returns. -/
def processEntriesOW (f : DirEntryGo → Option GoStr) :
    List DirEntryGo → Option GoStr
  | [] => none
  | e :: rest =>
    match f e with
    | some err => some err
    | none => processEntriesOW f rest

/-- The `for { lst, err := f.Readdir(buffer); ... }` loop of
`applyOpaqueWhiteout`, run for `fuel` iterations starting at call index
`i`.  `seq i` is the result of the `i`-th `Readdir` call.  Exactly as in
the code, the loop returns `nil` when `err == io.EOF` (before touching
the accompanying entries), returns the first removal error, and
otherwise — for `nil` *or any other* `Readdir` error — just keeps
looping.  `none` means the loop has not returned within `fuel`
iterations. -/
def owLoopRun (seq : Nat → List DirEntryGo × ReaddirErr)
    (f : DirEntryGo → Option GoStr) : Nat → Nat → Option (Except GoStr Unit)
  | _, 0 => none
  | i, fuel+1 =>
    if (seq i).2 = .eof then some (.ok ())
    else
      match processEntriesOW f (seq i).1 with
      | some e => some (.error e)
      | none => owLoopRun seq f (i + 1) fuel

/-- The loop terminates: it returns within some finite number of
iterations. -/
def owTerminates (seq : Nat → List DirEntryGo × ReaddirErr)
    (f : DirEntryGo → Option GoStr) : Prop :=
  ∃ fuel, (owLoopRun seq f 0 fuel).isSome = true

/-- A `Readdir` that forever reports an error other than `io.EOF`, with no
entries. -/
def stuckSeq : Nat → List DirEntryGo × ReaddirErr :=
  fun _ => ([], .other "transient failure".toList)

/-- A `Readdir` that reports `io.EOF` immediately. -/
def eofSeq : Nat → List DirEntryGo × ReaddirErr := fun _ => ([], .eof)

/-- Entry removal that always succeeds. -/
def removeOk : DirEntryGo → Option GoStr := fun _ => none

theorem owLoopRun_stuck (fuel i : Nat) :
    owLoopRun stuckSeq removeOk i fuel = none := by
  induction fuel generalizing i with
  | zero => rfl
  | succ n ih =>
    simp only [owLoopRun, stuckSeq, processEntriesOW]
    exact ih (i + 1)

/-! ### Claim C10 — termination of the opaque-whiteout loop -/

/-- C10 (counterexample): the claim that the loop "exits for every
possible sequence of Readdir results, including when Readdir repeatedly
returns an error other than io.EOF" is false: with a `Readdir` that
forever returns a non-`io.EOF` error and no entries, the loop never
returns — only `io.EOF` is treated as the exit condition and other errors
are silently swallowed. -/
theorem C10_stuck_loop_counterexample : ¬ owTerminates stuckSeq removeOk := by
  rintro ⟨fuel, hf⟩
  rw [owLoopRun_stuck fuel 0] at hf
  cases hf

theorem owLoopRun_isSome_of_eof
    (seq : Nat → List DirEntryGo × ReaddirErr) (f : DirEntryGo → Option GoStr)
    (d : Nat) :
    ∀ i, (seq (i + d)).2 = .eof →
      (owLoopRun seq f i (d + 1)).isSome = true := by
  induction d with
  | zero =>
    intro i h
    rw [Nat.add_zero] at h
    simp only [owLoopRun, if_pos h, Option.isSome_some]
  | succ d ih =>
    intro i h
    by_cases he : (seq i).2 = .eof
    · simp only [owLoopRun, if_pos he, Option.isSome_some]
    · simp only [owLoopRun, if_neg he]
      rcases hp : processEntriesOW f (seq i).1 with _ | e
      · have hh : (seq ((i + 1) + d)).2 = .eof := by
          have : (i + 1) + d = i + (d + 1) := by omega
          rw [this]
          exact h
        exact ih (i + 1) hh
      · simp only [Option.isSome_some]

/-- C10 (amended): the loop exits for every `Readdir` sequence that
*eventually* returns `io.EOF` (it may exit earlier with a removal error);
sequences that never return `io.EOF` make it loop forever, as the
counterexample shows. -/
theorem C10_loop_terminates_of_eventual_eof
    (seq : Nat → List DirEntryGo × ReaddirErr) (f : DirEntryGo → Option GoStr)
    (i : Nat) (h : (seq i).2 = .eof) : owTerminates seq f :=
  ⟨i + 1, owLoopRun_isSome_of_eof seq f i 0 (by rw [Nat.zero_add]; exact h)⟩

theorem C10_loop_terminates_witness : owTerminates eofSeq removeOk :=
  C10_loop_terminates_of_eventual_eof eofSeq removeOk 0 rfl

/-! ## The store (`pkg/image/store.go`)

`Store.Extract` and `Store.Purge` are sequences of I/O steps whose
outcomes the code treats as opaque `error` values.  They are embedded
over an environment fixing each step's outcome; digests and paths are
opaque `String`s here. -/

/-- `ManifestLayer` (`pkg/image/manifest.go`); `Extract` only reads the
digest. -/
structure ManifestLayerGo where
  mediaType : String := ""
  size : Nat := 0
  digest : String
deriving DecidableEq, Repr

/-- Outcomes of the I/O steps of `Store.Extract`, one field per call
site. -/
structure ExtractEnv where
  /-- `r.Layers()` -/
  layers : Except String (List ManifestLayerGo)
  /-- `ioutil.ReadDir(dst)` — number of entries on success -/
  dstEntries : Except String Nat
  /-- `os.Create` in `downloadLayer` for a cache miss on this digest -/
  createLayer : String → Except String Unit
  /-- the `StoreResult.Error` delivered on this digest's channel -/
  downloadResult : String → Except String Unit
  /-- `untarLayer` on the layer cached for this digest -/
  untarResult : String → Except String Unit
  /-- `setDirectoryPermissions(dirmodes)` -/
  setPermsResult : Except String Unit
  /-- `os.Create` in `saveLink` -/
  createLink : Except String Unit
  /-- the `i`-th `WriteString` in `saveLink` (0 = the header line) -/
  writeLine : Nat → Except String Unit

/-- The download kick-off loop of `Extract`: `downloadLayer` is called for
every layer in manifest order and its only synchronous failure is the
`os.Create` of the cache file. -/
def kickoffDownloads (env : ExtractEnv) : List ManifestLayerGo → Except String Unit
  | [] => .ok ()
  | l :: rest =>
    match env.createLayer l.digest with
    | .error e => .error ("error writing " ++ l.digest ++ ": " ++ e)
    | .ok _ => kickoffDownloads env rest

/-- The consumption loop of `Extract`: receive each layer's download
result in manifest order, untar it, and collect `digests[i] =
result.Digest`. -/
def processLayers (env : ExtractEnv) : List ManifestLayerGo → Except String (List String)
  | [] => .ok []
  | l :: rest =>
    match env.downloadResult l.digest with
    | .error e => .error ("error downloading " ++ l.digest ++ ": " ++ e)
    | .ok _ =>
      match env.untarResult l.digest with
      | .error e => .error ("error extracting " ++ l.digest ++ ": " ++ e)
      | .ok _ =>
        match processLayers env rest with
        | .error e => .error e
        | .ok ds => .ok (l.digest :: ds)

/-- The digest-writing loop of `saveLink`: returns the loop outcome and
the lines actually written.  Line `i` counts from 1 (0 is the header). -/
def writeDigestLines (env : ExtractEnv) : Nat → List String →
    Except String Unit × List String
  | _, [] => (.ok (), [])
  | i, d :: ds =>
    match env.writeLine i with
    | .error e => (.error ("error writing link file: " ++ e), [])
    | .ok _ =>
      let r := writeDigestLines env (i + 1) ds
      (r.1, d :: r.2)

/-- `Store.saveLink(dst, digests)`: create the link file, write the
destination as the first line and one digest per subsequent line.  The
second component is the content of the link file afterwards (`none` if it
was never created). -/
def saveLink (env : ExtractEnv) (dst : String) (digests : List String) :
    Except String Unit × Option (List String) :=
  match env.createLink with
  | .error e => (.error ("error creating link file: " ++ e), none)
  | .ok _ =>
    match env.writeLine 0 with
    | .error e => (.error ("error writing link file: " ++ e), some [])
    | .ok _ =>
      let r := writeDigestLines env 1 digests
      (r.1, some (dst :: r.2))

/-- `Store.Extract(ctx, r, dst)` in the Go statement order: resolve
layers (empty list is an error), check the destination has at most one
entry, kick off all downloads, consume them in manifest order
(download error, then `untarLayer`), apply the deferred directory modes,
then `saveLink`.  The second component is the link-file content (`none`
when no link file was written). -/
def extract (env : ExtractEnv) (dst : String) :
    Except String Unit × Option (List String) :=
  match env.layers with
  | .error e => (.error ("error querying layers: " ++ e), none)
  | .ok layers =>
    if layers.length = 0 then (.error "no layers found", none)
    else
      match env.dstEntries with
      | .error e => (.error ("error extracting to " ++ dst ++ ": " ++ e), none)
      | .ok n =>
        if n > 1 then (.error ("directory " ++ dst ++ " is not empty"), none)
        else
          match kickoffDownloads env layers with
          | .error e => (.error e, none)
          | .ok _ =>
            match processLayers env layers with
            | .error e => (.error e, none)
            | .ok digests =>
              match env.setPermsResult with
              | .error e =>
                (.error ("error setting directory permissions: " ++ e), none)
              | .ok _ => saveLink env dst digests

theorem processLayers_ok_map {env : ExtractEnv} :
    ∀ {layers : List ManifestLayerGo} {ds : List String},
      processLayers env layers = .ok ds →
      ds = layers.map (fun l => l.digest) := by
  intro layers
  induction layers with
  | nil =>
    intro ds h
    injection h with h
    subst h
    rfl
  | cons l rest ih =>
    intro ds h
    simp only [processLayers] at h
    rcases hd : env.downloadResult l.digest with e | v
    · rw [hd] at h; cases h
    · rw [hd] at h
      rcases hu : env.untarResult l.digest with e | v2
      · rw [hu] at h; cases h
      · rw [hu] at h
        rcases hr : processLayers env rest with e | ds0
        · rw [hr] at h; cases h
        · rw [hr] at h
          injection h with h
          subst h
          rw [List.map_cons, ih hr]

theorem kickoffDownloads_ok_forall {env : ExtractEnv} :
    ∀ {layers : List ManifestLayerGo} {v : Unit},
      kickoffDownloads env layers = .ok v →
      ∀ l ∈ layers, ∀ e, env.createLayer l.digest ≠ .error e := by
  intro layers
  induction layers with
  | nil =>
    intro v _ l hl
    cases hl
  | cons l0 rest ih =>
    intro v h l hl e
    simp only [kickoffDownloads] at h
    rcases hc : env.createLayer l0.digest with e0 | v0
    · rw [hc] at h; cases h
    · rw [hc] at h
      rcases List.mem_cons.mp hl with heq | hmem
      · subst heq
        rw [hc]
        intro hcc
        cases hcc
      · exact ih h l hmem e

theorem processLayers_ok_forall {env : ExtractEnv} :
    ∀ {layers : List ManifestLayerGo} {ds : List String},
      processLayers env layers = .ok ds →
      ∀ l ∈ layers,
        (∀ e, env.downloadResult l.digest ≠ .error e) ∧
        (∀ e, env.untarResult l.digest ≠ .error e) := by
  intro layers
  induction layers with
  | nil =>
    intro ds _ l hl
    cases hl
  | cons l0 rest ih =>
    intro ds h l hl
    simp only [processLayers] at h
    rcases hd : env.downloadResult l0.digest with e | v
    · rw [hd] at h; cases h
    · rw [hd] at h
      rcases hu : env.untarResult l0.digest with e | v2
      · rw [hu] at h; cases h
      · rw [hu] at h
        rcases hr : processLayers env rest with e | ds0
        · rw [hr] at h; cases h
        · rcases List.mem_cons.mp hl with heq | hmem
          · subst heq
            constructor
            · intro e hcc; rw [hd] at hcc; cases hcc
            · intro e hcc; rw [hu] at hcc; cases hcc
          · exact ih hr l hmem

theorem writeDigestLines_ok {env : ExtractEnv} :
    ∀ {ds : List String} {i : Nat} {v : Unit},
      (writeDigestLines env i ds).1 = .ok v →
      (writeDigestLines env i ds).2 = ds := by
  intro ds
  induction ds with
  | nil => intro i v _; rfl
  | cons d rest ih =>
    intro i v h
    simp only [writeDigestLines] at h ⊢
    rcases hw : env.writeLine i with e | v0
    · simp only [hw] at h
      cases h
    · simp only [hw] at h ⊢
      rw [ih h]

theorem saveLink_ok_content {env : ExtractEnv} {dst : String}
    {digests : List String} {v : Unit}
    (h : (saveLink env dst digests).1 = .ok v) :
    (saveLink env dst digests).2 = some (dst :: digests) := by
  simp only [saveLink] at h ⊢
  rcases hc : env.createLink with e | v0
  · simp only [hc] at h
    cases h
  · simp only [hc] at h ⊢
    rcases hw : env.writeLine 0 with e | v1
    · simp only [hw] at h
      cases h
    · simp only [hw] at h ⊢
      rw [writeDigestLines_ok h]

/-- The failure of one of the steps named by the claim (resolving layers
— including an empty layer list —, checking the destination, creating a
cache file, a download, an extraction, or applying the directory
modes). -/
def extractStepFails (env : ExtractEnv) : Prop :=
  (∃ e, env.layers = .error e) ∨
  (∃ layers, env.layers = .ok layers ∧
    (layers = [] ∨
      (∃ e, env.dstEntries = .error e) ∨
      (∃ n, env.dstEntries = .ok n ∧ n > 1) ∨
      (∃ l ∈ layers, ∃ e, env.createLayer l.digest = .error e) ∨
      (∃ l ∈ layers, (∃ e, env.downloadResult l.digest = .error e) ∨
        (∃ e, env.untarResult l.digest = .error e)) ∨
      (∃ e, env.setPermsResult = .error e)))

/-! ### Claim C1 — the link file is written exactly on success -/

/-- C1: if any pre-`saveLink` step of `Extract` fails (resolving layers,
a download, an extraction, applying directory modes — as well as the
other guards the code checks first), `Extract` returns an error and no
link file is written; if `Extract` returns no error, the link file exists
and contains the destination path as its first line followed by exactly
the manifest's layer digests, in manifest order. -/
theorem C1_extract_link_iff_success (env : ExtractEnv) (dst : String) :
    (∀ v, (extract env dst).1 = .ok v →
      ∃ layers, env.layers = .ok layers ∧
        (extract env dst).2 = some (dst :: layers.map (fun l => l.digest))) ∧
    (extractStepFails env →
      (∃ e, (extract env dst).1 = .error e) ∧ (extract env dst).2 = none) := by
  constructor
  · intro v h
    rcases hl : env.layers with e | layers
    · simp only [extract, hl] at h; cases h
    · refine ⟨layers, rfl, ?_⟩
      simp only [extract, hl] at h ⊢
      by_cases hlen : layers.length = 0
      · rw [if_pos hlen] at h; cases h
      · rw [if_neg hlen] at h ⊢
        rcases hd : env.dstEntries with e | n
        · simp only [hd] at h
          cases h
        · simp only [hd] at h ⊢
          by_cases hn : n > 1
          · rw [if_pos hn] at h; cases h
          · rw [if_neg hn] at h ⊢
            rcases hk : kickoffDownloads env layers with e | v0
            · simp only [hk] at h
              cases h
            · simp only [hk] at h ⊢
              rcases hp : processLayers env layers with e | ds
              · simp only [hp] at h
                cases h
              · simp only [hp] at h ⊢
                rcases hs : env.setPermsResult with e | v1
                · simp only [hs] at h
                  cases h
                · simp only [hs] at h ⊢
                  rw [saveLink_ok_content h, processLayers_ok_map hp]
  · intro hfail
    rcases hl : env.layers with e | layers
    · refine ⟨⟨"error querying layers: " ++ e, ?_⟩, ?_⟩ <;>
        simp only [extract, hl]
    · simp only [extract, hl]
      by_cases hlen : layers.length = 0
      · rw [if_pos hlen]
        exact ⟨⟨_, rfl⟩, rfl⟩
      · rw [if_neg hlen]
        rcases hd : env.dstEntries with e | n
        · simp only [hd]
          exact ⟨⟨_, rfl⟩, trivial⟩
        · simp only [hd]
          by_cases hn : n > 1
          · rw [if_pos hn]
            exact ⟨⟨_, rfl⟩, rfl⟩
          · rw [if_neg hn]
            rcases hk : kickoffDownloads env layers with e | v0
            · simp only [hk]
              exact ⟨⟨_, rfl⟩, trivial⟩
            · simp only [hk]
              rcases hp : processLayers env layers with e | ds
              · simp only [hp]
                exact ⟨⟨_, rfl⟩, trivial⟩
              · simp only [hp]
                rcases hs : env.setPermsResult with e | v1
                · simp only [hs]
                  exact ⟨⟨_, rfl⟩, trivial⟩
                · exfalso
                  rcases hfail with ⟨e, he⟩ | ⟨layers2, hl2, hcases⟩
                  · rw [hl] at he; cases he
                  · rw [hl] at hl2
                    injection hl2 with hl2
                    subst hl2
                    rcases hcases with h0 | ⟨e, h0⟩ | ⟨n2, h0, hgt⟩ |
                      ⟨l, hlm, e, h0⟩ | ⟨l, hlm, h0⟩ | ⟨e, h0⟩
                    · rw [h0] at hlen
                      exact hlen rfl
                    · rw [hd] at h0; cases h0
                    · rw [hd] at h0
                      injection h0 with h0
                      subst h0
                      exact hn hgt
                    · exact kickoffDownloads_ok_forall hk l hlm e h0
                    · rcases h0 with ⟨e, h0⟩ | ⟨e, h0⟩
                      · exact (processLayers_ok_forall hp l hlm).1 e h0
                      · exact (processLayers_ok_forall hp l hlm).2 e h0
                    · rw [hs] at h0; cases h0

/-- A concrete environment where extracting the only layer fails. -/
def envUntarFail : ExtractEnv :=
  { layers := .ok [{ digest := "sha256:aaa" }]
    dstEntries := .ok 1
    createLayer := fun _ => .ok ()
    downloadResult := fun _ => .ok ()
    untarResult := fun _ => .error "gzip: invalid header"
    setPermsResult := .ok ()
    createLink := .ok ()
    writeLine := fun _ => .ok () }

theorem C1_extract_link_iff_success_witness :
    (∃ e, (extract envUntarFail "/tmp/ubuntu").1 = .error e) ∧
      (extract envUntarFail "/tmp/ubuntu").2 = none :=
  (C1_extract_link_iff_success envUntarFail "/tmp/ubuntu").2
    (Or.inr ⟨[{ digest := "sha256:aaa" }], rfl,
      Or.inr (Or.inr (Or.inr (Or.inr (Or.inl
        ⟨{ digest := "sha256:aaa" }, List.mem_singleton_self _,
          Or.inr ⟨"gzip: invalid header", rfl⟩⟩))))⟩)

/-! ## `Store.Purge` and `Store.readLinks` (`pkg/image/store.go`) -/

/-- `Store.LinkPath(dst)`: the cache names a link file by a hash of the
destination.  The `md5`-hex naming is modelled by an injective stand-in
(md5 collisions are outside the model, as in the code, which relies on
the same assumption). -/
def linkPath (dst : String) : String := "links/" ++ dst ++ ".link"

/-- `links[dst] = append(links[dst], digest)` on the association list that
models the Go map built by `readLinks`. -/
def addDigest : List (String × List String) → String → String →
    List (String × List String)
  | [], d, g => [(d, [g])]
  | (k, gs) :: rest, d, g =>
    if k = d then (k, gs ++ [g]) :: rest
    else (k, gs) :: addDigest rest d g

/-- `readLinks`' scanner loop over one link file: the body keeps
assigning `dst` while `dst == ""` (so `dst` becomes the first non-empty
line, and lines up to it contribute nothing), and every later line is
appended as a digest of `dst`.  A file with no line after the
destination produces no map entry at all. -/
def fileLinks (m : List (String × List String)) (lines : List String) :
    List (String × List String) :=
  match lines.dropWhile (fun s => s = "") with
  | [] => m
  | d :: ds => ds.foldl (fun acc g => addDigest acc d g) m

/-- `Store.readLinks`: fold the scanner over every link file's lines. -/
def readLinks (files : List (List String)) : List (String × List String) :=
  files.foldl fileLinks []

/-- The digests marked "live" by `Purge`: all digests recorded for a
destination that still exists. -/
def digestsLive (links : List (String × List String))
    (dstExists : String → Bool) : List String :=
  (links.filter (fun e => dstExists e.1)).foldl (fun acc e => acc ++ e.2) []

/-- The cache state `Purge` operates on: the link files (name and lines),
which destinations exist on disk (`os.Stat`; other stat errors are not
modelled), and the digests that have a `layers/<digest>.layer` file. -/
structure PurgeEnv where
  linkFiles : List (String × List String)
  dstExists : String → Bool
  layers : List String

/-- `Store.Purge`: read the links, delete the link file of every recorded
destination that no longer exists, and delete every layer file whose
digest is not recorded for a still-existing destination.  (`os.Remove`
failures, which only abort early, are not modelled.) -/
def purge (env : PurgeEnv) : PurgeEnv :=
  let links := readLinks (env.linkFiles.map (fun f => f.2))
  let deadNames :=
    (links.filter (fun e => env.dstExists e.1 = false)).map (fun e => linkPath e.1)
  let live := digestsLive links env.dstExists
  { linkFiles := env.linkFiles.filter (fun f => decide (f.1 ∉ deadNames))
    dstExists := env.dstExists
    layers := env.layers.filter (fun d => decide (d ∈ live)) }

theorem mem_foldl_append {x : String} :
    ∀ (l : List (String × List String)) (acc : List String),
      x ∈ l.foldl (fun a e => a ++ e.2) acc ↔ x ∈ acc ∨ ∃ e ∈ l, x ∈ e.2 := by
  intro l
  induction l with
  | nil => simp
  | cons e0 rest ih =>
    intro acc
    rw [List.foldl_cons, ih]
    simp only [List.mem_append, List.mem_cons]
    constructor
    · rintro (⟨hx | hx⟩ | ⟨e, he, hx⟩)
      · exact Or.inl hx
      · exact Or.inr ⟨e0, Or.inl rfl, hx⟩
      · exact Or.inr ⟨e, Or.inr he, hx⟩
    · rintro (hx | ⟨e, (rfl | he), hx⟩)
      · exact Or.inl (Or.inl hx)
      · exact Or.inl (Or.inr hx)
      · exact Or.inr ⟨e, he, hx⟩

theorem mem_digestsLive {x : String} {links : List (String × List String)}
    {dstExists : String → Bool} (h : x ∈ digestsLive links dstExists) :
    ∃ dst ds, (dst, ds) ∈ links ∧ dstExists dst = true ∧ x ∈ ds := by
  rw [digestsLive, mem_foldl_append] at h
  rcases h with h | ⟨e, he, hx⟩
  · cases h
  · obtain ⟨hmem, hp⟩ := List.mem_filter.mp he
    exact ⟨e.1, e.2, hmem, hp, hx⟩

/-! ### Claim C6 — the purge invariant -/

/-- A cache with a single partially-written link file: it records the
destination `dead` on its first line but lists no digests (exactly the
state left behind when `saveLink` fails after writing only the header
line).  No destination exists on disk. -/
def purgeEnvOrphan : PurgeEnv :=
  { linkFiles := [(linkPath "dead", ["dead"])]
    dstExists := fun _ => false
    layers := [] }

/-- C6 (counterexample): the orphan-cleanup half of the claim is false as
stated.  `readLinks` creates a map entry only when at least one digest
line follows the destination line, so a link file holding only its
destination line is invisible to `Purge`: here the recorded destination
`dead` does not exist, `Purge` completes without error, and the link file
survives. -/
theorem C6_purge_counterexample :
    purgeEnvOrphan.dstExists "dead" = false ∧
      (purge purgeEnvOrphan).linkFiles = [(linkPath "dead", ["dead"])] := by
  exact ⟨rfl, rfl⟩

/-- C6 (amended): after `Purge`, every remaining layer file's digest is
recorded (by `readLinks`) for at least one destination that exists on
disk; and the link file of every recorded destination that does not exist
has been deleted — where "recorded" requires at least one digest line, so
a partially-written link file holding only the destination line is not
seen and survives (the counterexample). -/
theorem C6_purge_invariant (env : PurgeEnv) :
    (∀ d, d ∈ (purge env).layers →
      ∃ dst ds, (dst, ds) ∈ readLinks (env.linkFiles.map (fun f => f.2)) ∧
        env.dstExists dst = true ∧ d ∈ ds) ∧
    (∀ dst ds, (dst, ds) ∈ readLinks (env.linkFiles.map (fun f => f.2)) →
      env.dstExists dst = false →
      ∀ f ∈ (purge env).linkFiles, f.1 ≠ linkPath dst) := by
  constructor
  · intro d hd
    obtain ⟨hmem, hdec⟩ := List.mem_filter.mp hd
    exact mem_digestsLive (of_decide_eq_true hdec)
  · intro dst ds hlink hdead f hf hname
    obtain ⟨hmem, hdec⟩ := List.mem_filter.mp hf
    have hnot := of_decide_eq_true hdec
    apply hnot
    rw [hname]
    exact List.mem_map.mpr
      ⟨(dst, ds), List.mem_filter.mpr ⟨hlink, by simp [hdead]⟩, rfl⟩

/-- A cache with one live and one orphaned link record. -/
def purgeEnvW : PurgeEnv :=
  { linkFiles := [(linkPath "live", ["live", "d1"]), (linkPath "dead", ["dead", "d2"])]
    dstExists := fun s => s = "live"
    layers := ["d1", "d2"] }

theorem C6_purge_invariant_witness :
    ∃ dst ds, (dst, ds) ∈ readLinks (purgeEnvW.linkFiles.map (fun f => f.2)) ∧
      purgeEnvW.dstExists dst = true ∧ "d1" ∈ ds :=
  (C6_purge_invariant purgeEnvW).1 "d1" (by decide)

/-! ## `Remote.Digest` (`pkg/image/remote.go`) -/

/-- `Platform` (`pkg/image/manifest.go`): architecture and OS, compared
by equality of both fields. -/
structure PlatformGo where
  architecture : String
  osName : String
deriving DecidableEq, Repr

/-- `Platform.String()`: `"<os>/<arch>"`. -/
def platformString (p : PlatformGo) : String :=
  p.osName ++ "/" ++ p.architecture

/-- An entry of a manifest list (`PlatformManifest`). -/
structure PlatformManifestGo where
  digest : String
  platform : PlatformGo
deriving DecidableEq, Repr

/-- `ManifestList`. -/
structure ManifestListGo where
  manifests : List PlatformManifestGo
deriving DecidableEq, Repr

/-- The I/O outcomes `Remote.Digest` depends on: the `ManifestList()`
call (which returns `nil, nil` when there is no list, and an error only
for an unparsable list) and the `Docker-Content-Digest` header of the
`HEAD` fallback. -/
structure DigestEnv where
  manifestList : Except String (Option ManifestListGo)
  headDigest : Except String String

/-- The `HEAD …/manifests/<reference>` fallback of `Digest`. -/
def headFallback (env : DigestEnv) : Except String String :=
  match env.headDigest with
  | .error e => .error ("failed to fetch manifest: " ++ e)
  | .ok d => .ok d

/-- The `for _, m := range lst.Manifests` scan of `Digest`: the digest of
the first entry whose platform equals the bound platform. -/
def findPlatformDigest (p : PlatformGo) : List PlatformManifestGo → Option String
  | [] => none
  | m :: rest => if m.platform = p then some m.digest else findPlatformDigest p rest

/-- `Remote.Digest`, with the bound platform (`WithPlatform`) passed
explicitly and `url` standing for `r.url.String()` (so `r.String()` with
a bound platform `p` is `url ++ " " ++ platformString p`).  The branch
structure follows the Go code: first entry when a non-empty list exists
and no platform is bound; `HEAD` fallback when no platform is bound and
no (or an empty) list exists; `"no multi-platform support"` when a
platform is bound but no list exists; otherwise the platform scan with
`"no manifest found for <r>"`. -/
def remoteDigest (env : DigestEnv) (url : String)
    (platform : Option PlatformGo) : Except String String :=
  match env.manifestList with
  | .error e => .error e
  | .ok lst =>
    match platform, lst with
    | none, some l =>
      match l.manifests with
      | m :: _ => .ok m.digest
      | [] => headFallback env
    | none, none => headFallback env
    | some _, none => .error ("no multi-platform support: " ++ url)
    | some p, some l =>
      match findPlatformDigest p l.manifests with
      | some d => .ok d
      | none => .error ("no manifest found for " ++ (url ++ " " ++ platformString p))

theorem stringAppend_assoc (a b c : String) : a ++ b ++ c = a ++ (b ++ c) := by
  apply String.ext
  simp [String.data_append, List.append_assoc]

theorem findPlatformDigest_first (p : PlatformGo) :
    ∀ (pre : List PlatformManifestGo) (m : PlatformManifestGo)
      (post : List PlatformManifestGo),
      (∀ m2 ∈ pre, m2.platform ≠ p) → m.platform = p →
      findPlatformDigest p (pre ++ m :: post) = some m.digest := by
  intro pre
  induction pre with
  | nil =>
    intro m post _ hm
    simp only [List.nil_append, findPlatformDigest, if_pos hm]
  | cons m0 rest ih =>
    intro m post hpre hm
    have h0 : m0.platform ≠ p := hpre m0 (List.mem_cons_self _ _)
    simp only [List.cons_append, findPlatformDigest, if_neg h0]
    exact ih m post (fun m2 hm2 => hpre m2 (List.mem_cons_of_mem _ hm2)) hm

theorem findPlatformDigest_none (p : PlatformGo) :
    ∀ ms : List PlatformManifestGo,
      (∀ m ∈ ms, m.platform ≠ p) → findPlatformDigest p ms = none := by
  intro ms
  induction ms with
  | nil => intro _; rfl
  | cons m0 rest ih =>
    intro h
    simp only [findPlatformDigest, if_neg (h m0 (List.mem_cons_self _ _))]
    exact ih (fun m hm => h m (List.mem_cons_of_mem _ hm))

/-! ### Claim C3 — digest resolution -/

/-- C3: `Remote.Digest` resolves exactly as claimed.  When no platform is
bound and the fetched manifest list is non-empty, it returns the first
entry's digest.  When a platform is bound and a list exists, it returns
the digest of the first entry whose platform equals the bound platform by
both fields, and errors with
`no manifest found for <url> <os>/<arch>` when no entry matches.  When a
platform is bound and no manifest list exists, it errors with
`no multi-platform support: <url>`. -/
theorem C3_remote_digest (env : DigestEnv) (url : String) :
    (∀ m rest, env.manifestList = .ok (some ⟨m :: rest⟩) →
      remoteDigest env url none = .ok m.digest) ∧
    (∀ p l, env.manifestList = .ok (some l) →
      ((∀ pre m post, l.manifests = pre ++ m :: post →
          (∀ m2 ∈ pre, m2.platform ≠ p) → m.platform = p →
          remoteDigest env url (some p) = .ok m.digest) ∧
        ((∀ m ∈ l.manifests, m.platform ≠ p) →
          remoteDigest env url (some p) =
            .error ("no manifest found for " ++ url ++ " " ++ p.osName ++ "/" ++
              p.architecture)))) ∧
    (∀ p, env.manifestList = .ok none →
      remoteDigest env url (some p) =
        .error ("no multi-platform support: " ++ url)) := by
  refine ⟨?_, ?_, ?_⟩
  · intro m rest h
    simp only [remoteDigest, h]
  · intro p l h
    constructor
    · intro pre m post hsplit hpre hm
      simp only [remoteDigest, h, hsplit,
        findPlatformDigest_first p pre m post hpre hm]
    · intro hnone
      simp only [remoteDigest, h, findPlatformDigest_none p l.manifests hnone]
      congr 1
      apply String.ext
      simp [platformString, String.data_append, List.append_assoc]
  · intro p h
    simp only [remoteDigest, h]

/-- The claim's concrete scenario: a one-entry manifest list for
`{arch: amd64, os: linux}` with digest `foobar`. -/
def digestEnvW : DigestEnv :=
  { manifestList := .ok (some ⟨[⟨"foobar", ⟨"amd64", "linux"⟩⟩]⟩)
    headDigest := .ok "unused" }

theorem C3_remote_digest_witness :
    remoteDigest digestEnvW "registry-1.docker.io/library/ubuntu:latest" none =
      .ok "foobar" ∧
    remoteDigest digestEnvW "registry-1.docker.io/library/ubuntu:latest"
        (some ⟨"arm", "linux"⟩) =
      .error ("no manifest found for " ++
        "registry-1.docker.io/library/ubuntu:latest" ++ " " ++ "linux" ++ "/" ++
        "arm") :=
  ⟨(C3_remote_digest digestEnvW "registry-1.docker.io/library/ubuntu:latest").1
      ⟨"foobar", ⟨"amd64", "linux"⟩⟩ [] rfl,
    (((C3_remote_digest digestEnvW
        "registry-1.docker.io/library/ubuntu:latest").2.1 ⟨"arm", "linux"⟩
      ⟨[⟨"foobar", ⟨"amd64", "linux"⟩⟩]⟩ rfl).2 (by decide))⟩

end Roots
